import Mathlib

/-!
# indexnow: key-file check, sitemap aggregation and submission body

A shallow embedding of `main.go`.

* The network and the XML decoder are not part of the program; they are the
  fields of a `World`: `Get` answers `http.Get` (followed by `io.ReadAll` of the
  body), `unmarshalIndex` and `unmarshalURLSet` answer `xml.Unmarshal` into a
  `SitemapIndex` and into a `URLSet`, giving the `Loc` of every entry.
* A Go `error` is `Option String`: `none` is `nil`, `some msg` carries the text
  built by `fmt.Errorf`.
* The closure `fetch` of `getUrlsFromSitemaps` mutates `visited` and `allURLs`;
  here it passes a `FetchState` explicitly.  The state also logs every call of
  `http.Get` in `requests`.  The recursion need not end on an endless chain of
  sitemaps, so `fetch` takes a bound on the recursion depth and answers `none`
  when the bound is reached.
* Where the program only compares, concatenates and trims strings (addresses, page
  locations, the key file) a Go string is a Lean `String`, that is a text.  The
  JSON encoder looks at the bytes of a string, so in the part on the submission
  body a Go string is a list of bytes and `utf8` maps a text to its bytes.
  `strings.TrimSpace`, `json.Marshal` and the JSON decoding are library code and
  are written out after the Go standard library.
-/

namespace IndexNow

/-! ## The outside world -/

/-- Outcome of `io.ReadAll(resp.Body)`. -/
inductive ReadResult where
  | err (msg : String)
  | data (bytes : String)
deriving DecidableEq, Repr

/-- The part of `*http.Response` the program looks at. -/
structure Response where
  StatusCode : Nat
  Body : ReadResult
deriving DecidableEq, Repr

/-- Outcome of `http.Get(url)`: a transport error, or a response. -/
inductive GetResult where
  | err (msg : String)
  | ok (resp : Response)
deriving DecidableEq, Repr

/-- What the program reads from outside: the answer to a GET of each URL and the
result of XML decoding into each of the two document shapes. -/
structure World where
  Get : String → GetResult
  unmarshalIndex : String → Except String (List String)
  unmarshalURLSet : String → Except String (List String)

/-- The fields and the method of `*url.URL` the program uses; `text` is the
result of `String()`. -/
structure URL where
  Scheme : String
  Host : String
  text : String
deriving DecidableEq, Repr

/-! ## `checkKeyFileIntegrity` -/

/-- Go `unicode.IsSpace`. -/
def isSpace (c : Char) : Bool :=
  let n := c.toNat
  if n ≤ 0xFF then
    n = 0x09 || n = 0x0A || n = 0x0B || n = 0x0C || n = 0x0D || n = 0x20 || n = 0x85 || n = 0xA0
  else
    n = 0x1680 || (0x2000 ≤ n && n ≤ 0x200A) || n = 0x2028 || n = 0x2029 || n = 0x202F ||
      n = 0x205F || n = 0x3000

/-- Go `strings.TrimSpace`: drops the leading and the trailing white space. -/
def TrimSpace (s : String) : String :=
  String.mk ((s.toList.dropWhile isSpace).reverse.dropWhile isSpace).reverse

/-- Address of the key file built on the first line of `checkKeyFileIntegrity`. -/
def keyFileUrl (key : String) (siteUrl : URL) : String :=
  siteUrl.Scheme ++ "://" ++ siteUrl.Host ++ "/" ++ key ++ ".txt"

/-- Embedding of `checkKeyFileIntegrity`; `none` is a `nil` error. -/
def checkKeyFileIntegrity (w : World) (key : String) (siteUrl : URL) : Option String :=
  match w.Get (keyFileUrl key siteUrl) with
  | .err e =>
    some ("Unable to reach the site " ++ keyFileUrl key siteUrl ++ ", \n error log: " ++ e)
  | .ok res =>
    if res.StatusCode ≠ 200 then
      some ("Unable to reach the site " ++ keyFileUrl key siteUrl ++ ", \n error log: <nil>")
    else
      match res.Body with
      | .err e => some ("Unable to read the response body: " ++ e)
      | .data resBody =>
        if TrimSpace resBody ≠ key then some "Unable to read the response body: <nil>"
        else none

/-! ## `getUrlsFromSitemaps` -/

/-- The variables captured by the closure `fetch`, and the log of `http.Get` calls. -/
structure FetchState where
  visited : List String
  allURLs : List String
  requests : List String
deriving DecidableEq, Repr

/-- The loop `for _, entry := range index.Sitemaps` with its early `return err`. -/
def forEntries (f : String → FetchState → Option (Option String × FetchState)) :
    List String → FetchState → Option (Option String × FetchState)
  | [], st => some (none, st)
  | loc :: rest, st =>
    match f loc st with
    | none => none
    | some (some err, st1) => some (some err, st1)
    | some (none, st1) => forEntries f rest st1

/-- The closure `fetch`.  The first argument bounds the recursion depth; the result
is `none` when the bound is reached, else the returned error and the state. -/
def fetch (w : World) : Nat → String → FetchState → Option (Option String × FetchState)
  | 0, _, _ => none
  | fuel + 1, sitemapURL, st =>
    if sitemapURL ∈ st.visited then some (none, st)
    else
      let st1 : FetchState :=
        { st with visited := sitemapURL :: st.visited, requests := st.requests ++ [sitemapURL] }
      match w.Get sitemapURL with
      | .err e => some (some ("failed to fetch " ++ sitemapURL ++ ": " ++ e), st1)
      | .ok resp =>
        match resp.Body with
        | .err e => some (some ("failed to read body from " ++ sitemapURL ++ ": " ++ e), st1)
        | .data data =>
          match w.unmarshalIndex data with
          | .ok (entry :: entries) => forEntries (fetch w fuel) (entry :: entries) st1
          | _ =>
            match w.unmarshalURLSet data with
            | .error e =>
              some (some ("failed to parse XML from " ++ sitemapURL ++ ": " ++ e), st1)
            | .ok locs => some (none, { st1 with allURLs := st1.allURLs ++ locs })

/-- State at the start of `getUrlsFromSitemaps`. -/
def FetchState.init : FetchState := ⟨[], [], []⟩

/-- The call `fetch(sitemapBaseUrl.String())` from the initial state. -/
def run (w : World) (fuel : Nat) (root : String) : Option (Option String × FetchState) :=
  fetch w fuel root FetchState.init

/-- Embedding of `getUrlsFromSitemaps`: the pair `allURLs, err` it returns. -/
def getUrlsFromSitemaps (w : World) (fuel : Nat) (sitemapBaseUrl : URL) :
    Option (List String × Option String) :=
  (run w fuel sitemapBaseUrl.text).map fun r => (r.2.allURLs, r.1)

/-! ## What a document is, read off the world -/

/-- The document at `u` is one that `fetch` expands as a sitemap index: it is
fetched and read, and decoding it as an index succeeds with at least one entry. -/
def IsIndex (w : World) (u : String) (entries : List String) : Prop :=
  entries ≠ [] ∧ ∃ code data, w.Get u = .ok ⟨code, .data data⟩ ∧ w.unmarshalIndex data = .ok entries

/-- The document at `u` is one that `fetch` takes as a URL set with pages `locs`:
decoding it as an index fails or gives no entry, decoding it as a URL set succeeds. -/
def IsURLSet (w : World) (u : String) (locs : List String) : Prop :=
  ∃ code data, w.Get u = .ok ⟨code, .data data⟩ ∧
    (∀ e es, w.unmarshalIndex data ≠ .ok (e :: es)) ∧ w.unmarshalURLSet data = .ok locs

/-- The document at `u` decodes neither as a non-empty index nor as a URL set;
`cause` is the error of the second decoding. -/
def IsNeither (w : World) (u : String) (cause : String) : Prop :=
  ∃ code data, w.Get u = .ok ⟨code, .data data⟩ ∧
    (∀ e es, w.unmarshalIndex data ≠ .ok (e :: es)) ∧ w.unmarshalURLSet data = .error cause

/-- The sitemap locations `fetch` recurses into at `u`. -/
def children (w : World) (u : String) : List String :=
  match w.Get u with
  | .ok ⟨_, .data data⟩ =>
    match w.unmarshalIndex data with
    | .ok entries => entries
    | .error _ => []
  | _ => []

/-- The page locations the document at `u` adds to `allURLs` when it is fetched. -/
def contribution (w : World) (u : String) : List String :=
  match w.Get u with
  | .ok ⟨_, .data data⟩ =>
    match w.unmarshalIndex data with
    | .ok (_ :: _) => []
    | _ =>
      match w.unmarshalURLSet data with
      | .ok locs => locs
      | .error _ => []
  | _ => []

/-- The error the document at `u` raises by itself when it is fetched. -/
def directError (w : World) (u : String) : Option String :=
  match w.Get u with
  | .err e => some ("failed to fetch " ++ u ++ ": " ++ e)
  | .ok ⟨_, .err e⟩ => some ("failed to read body from " ++ u ++ ": " ++ e)
  | .ok ⟨_, .data data⟩ =>
    match w.unmarshalIndex data with
    | .ok (_ :: _) => none
    | _ =>
      match w.unmarshalURLSet data with
      | .error e => some ("failed to parse XML from " ++ u ++ ": " ++ e)
      | .ok _ => none

/-- Relation between the state `st` before a call of `fetch` and the state `st'`
after it: `new` is the list of addresses fetched by the call, in order. -/
def Ext (w : World) (st : FetchState) (new : List String) (err : Option String)
    (st' : FetchState) : Prop :=
  st'.requests = st.requests ++ new ∧
  st'.visited = new.reverse ++ st.visited ∧
  st'.allURLs = st.allURLs ++ new.flatMap (contribution w) ∧
  new.Nodup ∧ (∀ x ∈ new, x ∉ st.visited) ∧
  (∀ e, err = some e →
    ∃ pre last, new = pre ++ [last] ∧ directError w last = some e ∧
      ∀ x ∈ pre, directError w x = none) ∧
  (err = none → ∀ x ∈ new, directError w x = none)

/-- The same world with the status of every response replaced by `code`. -/
def setStatus (code : Nat) (w : World) : World :=
  { w with
    Get := fun u =>
      match w.Get u with
      | .err e => .err e
      | .ok resp => .ok { resp with StatusCode := code } }

/-! ## Sitemap trees -/

/-- A finite sitemap tree: a URL set with its page locations, or an index with its
children in the order listed. -/
inductive SitemapTree where
  | urlset (url : String) (locs : List String)
  | index (url : String) (children : List SitemapTree)

/-- Address of the root document of a tree. -/
def SitemapTree.url : SitemapTree → String
  | .urlset u _ => u
  | .index u _ => u

mutual
/-- Page locations of the leaves, depth first, children and locations in the order
listed. -/
def SitemapTree.pages : SitemapTree → List String
  | .urlset _ locs => locs
  | .index _ cs => SitemapTree.pagesList cs
/-- Page locations of a list of trees, left to right. -/
def SitemapTree.pagesList : List SitemapTree → List String
  | [] => []
  | t :: ts => SitemapTree.pages t ++ SitemapTree.pagesList ts
end

mutual
/-- Addresses of all documents of a tree, parent before children. -/
def SitemapTree.nodes : SitemapTree → List String
  | .urlset u _ => [u]
  | .index u cs => u :: SitemapTree.nodesList cs
/-- Addresses of all documents of a list of trees. -/
def SitemapTree.nodesList : List SitemapTree → List String
  | [] => []
  | t :: ts => SitemapTree.nodes t ++ SitemapTree.nodesList ts
end

mutual
/-- Number of documents on the longest path from the root to a leaf. -/
def SitemapTree.depth : SitemapTree → Nat
  | .urlset _ _ => 1
  | .index _ cs => SitemapTree.depthList cs + 1
/-- Largest depth in a list of trees. -/
def SitemapTree.depthList : List SitemapTree → Nat
  | [] => 0
  | t :: ts => max (SitemapTree.depth t) (SitemapTree.depthList ts)
end

mutual
/-- The world serves the tree: every index node is a document expanded as an index
whose entries are the addresses of its children, every leaf is a valid URL set. -/
def Realizes (w : World) : SitemapTree → Prop
  | .urlset u locs => IsURLSet w u locs
  | .index u cs => IsIndex w u (cs.map SitemapTree.url) ∧ RealizesList w cs
/-- The world serves every tree of the list. -/
def RealizesList (w : World) : List SitemapTree → Prop
  | [] => True
  | t :: ts => Realizes w t ∧ RealizesList w ts
end

/-! ## Example sites -/

/-- A URL whose `String()` is `s`. -/
def urlOf (s : String) : URL := ⟨"https", "a.example", s⟩

/-- A site with a root index listing two URL sets of three and two pages. -/
def siteTwoLeaves : World where
  Get := fun u =>
    if u = "https://a.example/root.xml" then .ok ⟨200, .data "root"⟩
    else if u = "https://a.example/s1.xml" then .ok ⟨200, .data "s1"⟩
    else if u = "https://a.example/s2.xml" then .ok ⟨200, .data "s2"⟩
    else .err "no such host"
  unmarshalIndex := fun d =>
    if d = "root" then .ok ["https://a.example/s1.xml", "https://a.example/s2.xml"] else .ok []
  unmarshalURLSet := fun d =>
    if d = "s1" then .ok ["https://a.example/p1", "https://a.example/p2", "https://a.example/p3"]
    else if d = "s2" then .ok ["https://a.example/p4", "https://a.example/p5"]
    else .ok []

/-- The tree served by `siteTwoLeaves`. -/
def treeTwoLeaves : SitemapTree :=
  .index "https://a.example/root.xml"
    [.urlset "https://a.example/s1.xml"
        ["https://a.example/p1", "https://a.example/p2", "https://a.example/p3"],
     .urlset "https://a.example/s2.xml" ["https://a.example/p4", "https://a.example/p5"]]

/-- A site whose root index lists a valid URL set and then a document that is not
XML. -/
def siteBadSecond : World where
  Get := fun u =>
    if u = "https://a.example/root.xml" then .ok ⟨200, .data "root"⟩
    else if u = "https://a.example/s1.xml" then .ok ⟨200, .data "s1"⟩
    else if u = "https://a.example/bad.xml" then .ok ⟨200, .data "garbage"⟩
    else .err "no such host"
  unmarshalIndex := fun d =>
    if d = "root" then .ok ["https://a.example/s1.xml", "https://a.example/bad.xml"]
    else if d = "garbage" then .error "EOF"
    else .ok []
  unmarshalURLSet := fun d =>
    if d = "s1" then .ok ["https://a.example/p1"]
    else if d = "garbage" then .error "EOF"
    else .ok []

/-- A site that answers the sitemap address with status 404 and a body that is a
well-formed URL set. -/
def site404 : World where
  Get := fun u =>
    if u = "https://a.example/sitemap.xml" then .ok ⟨404, .data "urlset"⟩
    else .err "no such host"
  unmarshalIndex := fun _ => .ok []
  unmarshalURLSet := fun d => if d = "urlset" then .ok ["https://a.example/gone"] else .ok []

/-- A diamond: the root lists two indexes, both list the same URL set, the second
one twice. -/
def siteDiamond : World where
  Get := fun u =>
    if u = "https://a.example/root.xml" then .ok ⟨200, .data "root"⟩
    else if u = "https://a.example/i1.xml" then .ok ⟨200, .data "i1"⟩
    else if u = "https://a.example/i2.xml" then .ok ⟨200, .data "i2"⟩
    else if u = "https://a.example/leaf.xml" then .ok ⟨200, .data "leaf"⟩
    else .err "no such host"
  unmarshalIndex := fun d =>
    if d = "root" then .ok ["https://a.example/i1.xml", "https://a.example/i2.xml"]
    else if d = "i1" then .ok ["https://a.example/leaf.xml"]
    else if d = "i2" then .ok ["https://a.example/leaf.xml", "https://a.example/leaf.xml"]
    else .ok []
  unmarshalURLSet := fun d => if d = "leaf" then .ok ["https://a.example/p"] else .ok []

/-- A cycle: index A lists a URL set and index B, index B lists A. -/
def siteCycle : World where
  Get := fun u =>
    if u = "https://a.example/A.xml" then .ok ⟨200, .data "A"⟩
    else if u = "https://a.example/B.xml" then .ok ⟨200, .data "B"⟩
    else if u = "https://a.example/leaf.xml" then .ok ⟨200, .data "leaf"⟩
    else .err "no such host"
  unmarshalIndex := fun d =>
    if d = "A" then .ok ["https://a.example/leaf.xml", "https://a.example/B.xml"]
    else if d = "B" then .ok ["https://a.example/A.xml"]
    else .ok []
  unmarshalURLSet := fun d => if d = "leaf" then .ok ["https://a.example/p"] else .ok []

/-- A site whose root index lists a valid URL set, then a document that cannot be
fetched, then another valid URL set. -/
def siteFailMiddle : World where
  Get := fun u =>
    if u = "https://a.example/root.xml" then .ok ⟨200, .data "root"⟩
    else if u = "https://a.example/s1.xml" then .ok ⟨200, .data "s1"⟩
    else if u = "https://a.example/s2.xml" then .ok ⟨200, .data "s2"⟩
    else .err "no such host"
  unmarshalIndex := fun d =>
    if d = "root" then
      .ok ["https://a.example/s1.xml", "https://a.example/down.xml", "https://a.example/s2.xml"]
    else .ok []
  unmarshalURLSet := fun d =>
    if d = "s1" then .ok ["https://a.example/p1"]
    else if d = "s2" then .ok ["https://a.example/p4"]
    else .ok []

/-- A site whose root document holds both sitemap entries and page entries, and whose
two URL sets repeat a page. -/
def siteMixed : World where
  Get := fun u =>
    if u = "https://a.example/root.xml" then .ok ⟨200, .data "root"⟩
    else if u = "https://a.example/s1.xml" then .ok ⟨200, .data "s1"⟩
    else if u = "https://a.example/s2.xml" then .ok ⟨200, .data "s2"⟩
    else .err "no such host"
  unmarshalIndex := fun d =>
    if d = "root" then .ok ["https://a.example/s1.xml", "https://a.example/s2.xml"] else .ok []
  unmarshalURLSet := fun d =>
    if d = "root" then .ok ["https://a.example/own"]
    else if d = "s1" then .ok ["https://a.example/p", "https://a.example/p", "https://a.example/q"]
    else if d = "s2" then .ok ["https://a.example/p"]
    else .ok []

/-- A site that serves the key file of key `abc123` with trailing white space. -/
def siteKey : World where
  Get := fun u =>
    if u = "https://a.example/abc123.txt" then .ok ⟨200, .data "abc123 \r\n"⟩
    else .err "no such host"
  unmarshalIndex := fun _ => .ok []
  unmarshalURLSet := fun _ => .ok []

/-- A site whose key file holds `abc124`. -/
def siteWrongKey : World where
  Get := fun u =>
    if u = "https://a.example/abc123.txt" then .ok ⟨200, .data "abc124"⟩
    else .err "no such host"
  unmarshalIndex := fun _ => .ok []
  unmarshalURLSet := fun _ => .ok []

/-- Number of addresses of `S` not yet visited: it bounds the depth the recursion
can still reach. -/
def unvisited (S visited : List String) : Nat :=
  S.countP fun x => decide (x ∉ visited)

/-- The list `S` holds every sitemap address reachable from its members. -/
def Closed (w : World) (S : List String) : Prop :=
  ∀ u ∈ S, ∀ c ∈ children w u, c ∈ S

/-! ## The submission body

`encoding/json` looks at the bytes of a string, and a Go string may hold bytes that
are not UTF-8.  In this part a Go string is therefore a list of bytes, each a natural
number below 256; `utf8` gives the bytes of a text. -/

/-- A Go string or byte slice, byte by byte. -/
abbrev Bytes := List Nat

/-- Go `utf8.RuneError`, the replacement character U+FFFD. -/
def RuneError : Nat := 0xFFFD

/-- Go `utf8.AppendRune`: the UTF-8 encoding of a rune; surrogates and values above
U+10FFFF are written as U+FFFD. -/
def encodeRune (r : Nat) : Bytes :=
  if r < 0x80 then [r]
  else if r < 0x800 then [0xC0 + r / 64, 0x80 + r % 64]
  else if (0xD800 ≤ r ∧ r ≤ 0xDFFF) ∨ 0x10FFFF < r then [0xEF, 0xBF, 0xBD]
  else if r < 0x10000 then [0xE0 + r / 4096, 0x80 + r / 64 % 64, 0x80 + r % 64]
  else [0xF0 + r / 262144, 0x80 + r / 4096 % 64, 0x80 + r / 64 % 64, 0x80 + r % 64]

/-- A continuation byte, `10xxxxxx`. -/
def isCont (b : Nat) : Bool := 0x80 ≤ b && b ≤ 0xBF

/-- Go `utf8.DecodeRune`: the first rune of a byte sequence and its width; a byte
that starts no valid encoding gives `(RuneError, 1)`. -/
def decodeRune : Bytes → Nat × Nat
  | [] => (RuneError, 0)
  | s0 :: t =>
    if s0 < 0x80 then (s0, 1)
    else if s0 < 0xC2 ∨ 0xF4 < s0 then (RuneError, 1)
    else
      let lo := if s0 = 0xE0 then 0xA0 else if s0 = 0xF0 then 0x90 else 0x80
      let hi := if s0 = 0xED then 0x9F else if s0 = 0xF4 then 0x8F else 0xBF
      match t with
      | [] => (RuneError, 1)
      | s1 :: t1 =>
        if s0 < 0xE0 then
          if s1 < lo ∨ hi < s1 then (RuneError, 1)
          else (s0 % 32 * 64 + s1 % 64, 2)
        else
          match t1 with
          | [] => (RuneError, 1)
          | s2 :: t2 =>
            if s0 < 0xF0 then
              if s1 < lo ∨ hi < s1 then (RuneError, 1)
              else if !isCont s2 then (RuneError, 1)
              else (s0 % 16 * 4096 + s1 % 64 * 64 + s2 % 64, 3)
            else
              match t2 with
              | [] => (RuneError, 1)
              | s3 :: _ =>
                if s1 < lo ∨ hi < s1 then (RuneError, 1)
                else if !isCont s2 then (RuneError, 1)
                else if !isCont s3 then (RuneError, 1)
                else (s0 % 8 * 262144 + s1 % 64 * 4096 + s2 % 64 * 64 + s3 % 64, 4)

/-- UTF-8 bytes of a text. -/
def utf8 (s : String) : Bytes := s.toList.flatMap fun c => encodeRune c.toNat

/-- The digit of `0123456789abcdef` at index `n`. -/
def hex (n : Nat) : Nat := if n < 10 then 0x30 + n else 0x61 + (n - 10)

/-- Table `htmlSafeSet` of `encoding/json`: the ASCII bytes written as they are,
that is all from the space on but the quote, `&`, `<`, `>` and the backslash. -/
def htmlSafe (b : Nat) : Bool :=
  0x20 ≤ b && b != 0x22 && b != 0x26 && b != 0x3C && b != 0x3E && b != 0x5C

/-- Escape written by `encoding/json` for an ASCII byte outside `htmlSafeSet`. -/
def escapeASCII (b : Nat) : Bytes :=
  if b = 0x5C ∨ b = 0x22 then [0x5C, b]
  else if b = 0x08 then [0x5C, 0x62]
  else if b = 0x0C then [0x5C, 0x66]
  else if b = 0x0A then [0x5C, 0x6E]
  else if b = 0x0D then [0x5C, 0x72]
  else if b = 0x09 then [0x5C, 0x74]
  else [0x5C, 0x75, 0x30, 0x30, hex (b / 16), hex (b % 16)]

/-- One turn of the loop of `appendString` in `encoding/json` at the byte `b` followed
by `t`: the bytes written and the number of source bytes consumed.  A byte that is
not part of valid UTF-8 is written as the escape of U+FFFD; U+2028 and U+2029 are
escaped. -/
def escapeStep (b : Nat) (t : Bytes) : Bytes × Nat :=
  if b < 0x80 then ((if htmlSafe b then [b] else escapeASCII b), 1)
  else
    let cs := decodeRune ((b :: t).take 4)
    if cs.1 = RuneError ∧ cs.2 = 1 then ([0x5C, 0x75, 0x66, 0x66, 0x66, 0x64], 1)
    else if cs.1 = 0x2028 ∨ cs.1 = 0x2029 then
      ([0x5C, 0x75, 0x32, 0x30, 0x32, hex (cs.1 % 16)], cs.2)
    else ((b :: t).take cs.2, cs.2)

/-- The loop of `appendString`; the first argument bounds the number of turns. -/
def appendStringLoop : Nat → Bytes → Bytes
  | 0, _ => []
  | fuel + 1, s =>
    match s with
    | [] => []
    | b :: t => (escapeStep b t).1 ++ appendStringLoop fuel (s.drop (escapeStep b t).2)

/-- JSON string literal written by `json.Marshal` for a Go string. -/
def appendString (s : Bytes) : Bytes :=
  [0x22] ++ appendStringLoop s.length s ++ [0x22]

/-- The struct `IndexNowRequest`. -/
structure IndexNowRequest where
  Host : Bytes
  Key : Bytes
  UrlList : List Bytes
deriving DecidableEq, Repr

/-- Elements of a JSON array of strings, separated by commas. -/
def appendArray : List Bytes → Bytes
  | [] => []
  | [s] => appendString s
  | s :: t => appendString s ++ [0x2C] ++ appendArray t

/-- Go `json.Marshal` at type `IndexNowRequest`: an object with the members `host`,
`key` and `urlList` (the names of the struct tags) in the order of the fields.  It
never fails at this type.  The URL list is a slice that is not `nil`, as the one
`getUrlsFromSitemaps` returns (a `nil` slice would be written as `null`). -/
def Marshal (r : IndexNowRequest) : Bytes :=
  [0x7B, 0x22, 0x68, 0x6F, 0x73, 0x74, 0x22, 0x3A] ++ appendString r.Host ++
  [0x2C, 0x22, 0x6B, 0x65, 0x79, 0x22, 0x3A] ++ appendString r.Key ++
  [0x2C, 0x22, 0x75, 0x72, 0x6C, 0x4C, 0x69, 0x73, 0x74, 0x22, 0x3A] ++
  ([0x5B] ++ appendArray r.UrlList ++ [0x5D]) ++ [0x7D]

/-- Embedding of `postToIndexNow`; `Post` answers `http.Post` and `host` is
`siteUrl.Host`. -/
def postToIndexNow (Post : String → String → Bytes → GetResult) (host key : Bytes)
    (urlsToIndex : List Bytes) (indexnowUrl : String) : GetResult :=
  let request : IndexNowRequest := { Host := host, Key := key, UrlList := urlsToIndex }
  let jsonBody := Marshal request
  Post indexnowUrl "application/json; charset=utf-8" jsonBody

/-- Value of a hexadecimal digit. -/
def hexVal (c : Nat) : Option Nat :=
  if 0x30 ≤ c ∧ c ≤ 0x39 then some (c - 0x30)
  else if 0x61 ≤ c ∧ c ≤ 0x66 then some (c - 0x61 + 10)
  else if 0x41 ≤ c ∧ c ≤ 0x46 then some (c - 0x41 + 10)
  else none

/-- Function `getu4` of `encoding/json`: the value of an escape of the form
backslash, `u`, four hexadecimal digits at the start of the input. -/
def getu4 : Bytes → Option Nat
  | b :: u :: c0 :: c1 :: c2 :: c3 :: _ =>
    if b = 0x5C ∧ u = 0x75 then
      match hexVal c0, hexVal c1, hexVal c2, hexVal c3 with
      | some d0, some d1, some d2, some d3 => some (((d0 * 16 + d1) * 16 + d2) * 16 + d3)
      | _, _, _, _ => none
    else none
  | _ => none

/-- One turn of the loop of `unquoteBytes` in `encoding/json` at the byte `c` followed
by `t`, inside a string literal: the bytes produced and the number of input bytes
consumed, or `none` where the literal is malformed. -/
def unquoteStep (c : Nat) (t : Bytes) : Option (Bytes × Nat) :=
  if c = 0x5C then
    match t with
    | [] => none
    | e :: _ =>
      if e = 0x22 ∨ e = 0x5C ∨ e = 0x2F then some ([e], 2)
      else if e = 0x62 then some ([0x08], 2)
      else if e = 0x66 then some ([0x0C], 2)
      else if e = 0x6E then some ([0x0A], 2)
      else if e = 0x72 then some ([0x0D], 2)
      else if e = 0x74 then some ([0x09], 2)
      else if e = 0x75 then
        match getu4 (c :: t) with
        | none => none
        | some rr =>
          if 0xD800 ≤ rr ∧ rr < 0xE000 then
            match getu4 ((c :: t).drop 6) with
            | some rr1 =>
              if rr < 0xDC00 ∧ 0xDC00 ≤ rr1 ∧ rr1 < 0xE000 then
                some (encodeRune ((rr - 0xD800) * 1024 + (rr1 - 0xDC00) + 0x10000), 12)
              else some (encodeRune RuneError, 6)
            | none => some (encodeRune RuneError, 6)
          else some (encodeRune rr, 6)
      else none
  else if c < 0x20 then none
  else if c < 0x80 then some ([c], 1)
  else some (encodeRune (decodeRune (c :: t)).1, (decodeRune (c :: t)).2)

/-- Reads a string literal after its opening quote: the decoded bytes (after `acc`)
and the input left after the closing quote.  The first argument bounds the number of
turns. -/
def readString : Nat → Bytes → Bytes → Option (Bytes × Bytes)
  | 0, _, _ => none
  | fuel + 1, s, acc =>
    match s with
    | [] => none
    | c :: t =>
      if c = 0x22 then some (acc, t)
      else
        match unquoteStep c t with
        | none => none
        | some (out, k) => readString fuel (s.drop k) (acc ++ out)

/-- JSON white space. -/
def isWs (b : Nat) : Bool := b = 0x20 || b = 0x09 || b = 0x0D || b = 0x0A

/-- Skips leading white space. -/
def skipWs (s : Bytes) : Bytes := s.dropWhile isWs

/-- Reads a JSON string value. -/
def readStringValue (s : Bytes) : Option (Bytes × Bytes) :=
  match skipWs s with
  | [] => none
  | q :: t => if q = 0x22 then readString t.length t [] else none

/-- Reads the elements of a non-empty array of strings up to the closing bracket. -/
def readElems : Nat → Bytes → List Bytes → Option (List Bytes × Bytes)
  | 0, _, _ => none
  | fuel + 1, s, acc =>
    match readStringValue s with
    | none => none
    | some (str, rest) =>
      match skipWs rest with
      | [] => none
      | d :: rest1 =>
        if d = 0x2C then readElems fuel rest1 (acc ++ [str])
        else if d = 0x5D then some (acc ++ [str], rest1)
        else none

/-- Reads a JSON array of strings, or `null`, into a slice of strings. -/
def readArray (s : Bytes) : Option (List Bytes × Bytes) :=
  match skipWs s with
  | [] => none
  | o :: t =>
    if o = 0x5B then
      match skipWs t with
      | [] => none
      | c :: t1 => if c = 0x5D then some ([], t1) else readElems t.length t []
    else if o :: t.take 3 = [0x6E, 0x75, 0x6C, 0x6C] then some ([], t.drop 3)
    else none

/-- Stores the value of the member `key` in the field whose struct tag is `key`. -/
def readField (key : Bytes) (s : Bytes) (r : IndexNowRequest) :
    Option (IndexNowRequest × Bytes) :=
  if key = [0x68, 0x6F, 0x73, 0x74] then
    (readStringValue s).map fun v => ({ r with Host := v.1 }, v.2)
  else if key = [0x6B, 0x65, 0x79] then
    (readStringValue s).map fun v => ({ r with Key := v.1 }, v.2)
  else if key = [0x75, 0x72, 0x6C, 0x4C, 0x69, 0x73, 0x74] then
    (readArray s).map fun v => ({ r with UrlList := v.1 }, v.2)
  else none

/-- Reads the members of an object up to the closing brace. -/
def readMembers : Nat → Bytes → IndexNowRequest → Option (IndexNowRequest × Bytes)
  | 0, _, _ => none
  | fuel + 1, s, r =>
    match readStringValue s with
    | none => none
    | some (key, rest) =>
      match skipWs rest with
      | [] => none
      | c :: rest1 =>
        if c = 0x3A then
          match readField key rest1 r with
          | none => none
          | some (r1, rest2) =>
            match skipWs rest2 with
            | [] => none
            | d :: rest3 =>
              if d = 0x2C then readMembers fuel rest3 r1
              else if d = 0x7D then some (r1, rest3)
              else none
        else none

/-- Decoding of a JSON text into an `IndexNowRequest`, as `json.Unmarshal` does it for
an object whose members are those of the struct, strings being unquoted as in
`unquoteBytes`.  Other JSON (unknown members, values of other types) is outside this
model and gives `none`. -/
def Unmarshal (data : Bytes) : Option IndexNowRequest :=
  match skipWs data with
  | [] => none
  | o :: t =>
    if o = 0x7B then
      match skipWs t with
      | [] => none
      | c :: t1 =>
        if c = 0x7D then (if skipWs t1 = [] then some ⟨[], [], []⟩ else none)
        else
          match readMembers t.length t ⟨[], [], []⟩ with
          | none => none
          | some (r, rest) => if skipWs rest = [] then some r else none
    else none

/-- A Unicode scalar value. -/
def ValidRune (n : Nat) : Prop := n < 0xD800 ∨ (0xDFFF < n ∧ n < 0x110000)

/-- The bytes are the UTF-8 encoding of a text. -/
def ValidUTF8 (s : Bytes) : Prop := ∃ str : String, s = utf8 str

/-- What the encoder writes for one scalar value. -/
def encRune (n : Nat) : Bytes :=
  if n < 0x80 then (if htmlSafe n then [n] else escapeASCII n)
  else if n = 0x2028 ∨ n = 0x2029 then [0x5C, 0x75, 0x32, 0x30, 0x32, hex (n % 16)]
  else encodeRune n

/-! ## Shape of a call of `fetch` -/

theorem Ext.refl (w : World) (st : FetchState) : Ext w st [] none st := by
  simp [Ext]

theorem Ext.trans {w : World} {st st1 st2 : FetchState} {n1 n2 : List String}
    {err : Option String} (h1 : Ext w st n1 none st1) (h2 : Ext w st1 n2 err st2) :
    Ext w st (n1 ++ n2) err st2 := by
  obtain ⟨r1, v1, a1, d1, f1, -, ok1⟩ := h1
  obtain ⟨r2, v2, a2, d2, f2, e2, ok2⟩ := h2
  have ok1 := ok1 rfl
  refine ⟨?_, ?_, ?_, ?_, ?_, ?_, ?_⟩
  · rw [r2, r1, List.append_assoc]
  · rw [v2, v1, List.reverse_append, List.append_assoc]
  · rw [a2, a1, List.flatMap_append, List.append_assoc]
  · rw [List.nodup_append]
    refine ⟨d1, d2, ?_⟩
    intro x hx1 hx2
    apply f2 x hx2
    rw [v1]
    simp [hx1]
  · intro x hx
    rcases List.mem_append.1 hx with h | h
    · exact f1 x h
    · intro hv
      apply f2 x h
      rw [v1]
      simp [hv]
  · intro e he
    obtain ⟨pre, last, hn, hl, hp⟩ := e2 e he
    refine ⟨n1 ++ pre, last, ?_, hl, ?_⟩
    · rw [hn, List.append_assoc]
    · intro x hx
      rcases List.mem_append.1 hx with h | h
      · exact ok1 x h
      · exact hp x h
  · intro he x hx
    rcases List.mem_append.1 hx with h | h
    · exact ok1 x h
    · exact ok2 he x h

theorem Ext.single (w : World) {st : FetchState} {u : String} (hv : u ∉ st.visited) :
    Ext w st [u] (directError w u)
      ⟨u :: st.visited, st.allURLs ++ contribution w u, st.requests ++ [u]⟩ := by
  refine ⟨rfl, rfl, by simp, by simp, by simpa using hv, ?_, ?_⟩
  · intro e he
    exact ⟨[], u, rfl, he, by simp⟩
  · intro he x hx
    rw [List.mem_singleton.1 hx]
    exact he

theorem forEntries_ext {w : World}
    {f : String → FetchState → Option (Option String × FetchState)}
    (hf : ∀ c st err st', f c st = some (err, st') → ∃ new, Ext w st new err st') :
    ∀ (cs : List String) (st : FetchState) (err : Option String) (st' : FetchState),
      forEntries f cs st = some (err, st') → ∃ new, Ext w st new err st' := by
  intro cs
  induction cs with
  | nil =>
    intro st err st' h
    simp only [forEntries, Option.some.injEq, Prod.mk.injEq] at h
    obtain ⟨rfl, rfl⟩ := h
    exact ⟨[], Ext.refl w st⟩
  | cons c cs ih =>
    intro st err st' h
    unfold forEntries at h
    cases hc : f c st with
    | none => simp [hc] at h
    | some r =>
      obtain ⟨e1, st1⟩ := r
      cases e1 with
      | some e =>
        simp only [hc, Option.some.injEq, Prod.mk.injEq] at h
        obtain ⟨rfl, rfl⟩ := h
        exact hf c st _ _ hc
      | none =>
        simp only [hc] at h
        obtain ⟨n1, h1⟩ := hf c st _ _ hc
        obtain ⟨n2, h2⟩ := ih st1 err st' h
        exact ⟨n1 ++ n2, h1.trans h2⟩

theorem fetch_ext (w : World) :
    ∀ (fuel : Nat) (u : String) (st : FetchState) (err : Option String) (st' : FetchState),
      fetch w fuel u st = some (err, st') → ∃ new, Ext w st new err st' := by
  intro fuel
  induction fuel with
  | zero => intro u st err st' h; simp [fetch] at h
  | succ fuel ih =>
    intro u st err st' h
    unfold fetch at h
    by_cases hv : u ∈ st.visited
    · simp only [hv, if_true, Option.some.injEq, Prod.mk.injEq] at h
      obtain ⟨rfl, rfl⟩ := h
      exact ⟨[], Ext.refl w st⟩
    · simp only [hv, if_false] at h
      cases hg : w.Get u with
      | err e =>
        simp only [hg, Option.some.injEq, Prod.mk.injEq] at h
        obtain ⟨rfl, rfl⟩ := h
        refine ⟨[u], ?_⟩
        simpa [contribution, directError, hg] using Ext.single w hv
      | ok resp =>
        obtain ⟨code, body⟩ := resp
        cases body with
        | err e =>
          simp only [hg, Option.some.injEq, Prod.mk.injEq] at h
          obtain ⟨rfl, rfl⟩ := h
          refine ⟨[u], ?_⟩
          simpa [contribution, directError, hg] using Ext.single w hv
        | data data =>
          simp only [hg] at h
          cases hi : w.unmarshalIndex data with
          | ok entries =>
            cases entries with
            | cons entry entries =>
              simp only [hi] at h
              obtain ⟨n2, h2⟩ := forEntries_ext ih _ _ _ _ h
              refine ⟨[u] ++ n2, Ext.trans ?_ h2⟩
              simpa [contribution, directError, hg, hi] using Ext.single w hv
            | nil =>
              simp only [hi] at h
              cases hu : w.unmarshalURLSet data with
              | error e =>
                simp only [hu, Option.some.injEq, Prod.mk.injEq] at h
                obtain ⟨rfl, rfl⟩ := h
                refine ⟨[u], ?_⟩
                simpa [contribution, directError, hg, hi, hu] using Ext.single w hv
              | ok locs =>
                simp only [hu, Option.some.injEq, Prod.mk.injEq] at h
                obtain ⟨rfl, rfl⟩ := h
                refine ⟨[u], ?_⟩
                simpa [contribution, directError, hg, hi, hu] using Ext.single w hv
          | error e0 =>
            simp only [hi] at h
            cases hu : w.unmarshalURLSet data with
            | error e =>
              simp only [hu, Option.some.injEq, Prod.mk.injEq] at h
              obtain ⟨rfl, rfl⟩ := h
              refine ⟨[u], ?_⟩
              simpa [contribution, directError, hg, hi, hu] using Ext.single w hv
            | ok locs =>
              simp only [hu, Option.some.injEq, Prod.mk.injEq] at h
              obtain ⟨rfl, rfl⟩ := h
              refine ⟨[u], ?_⟩
              simpa [contribution, directError, hg, hi, hu] using Ext.single w hv

/-! ## Unfolding one call -/

/-- A call on a visited address returns `nil` at once. -/
theorem fetch_visited (w : World) (fuel : Nat) (u : String) (st : FetchState)
    (hv : u ∈ st.visited) : fetch w (fuel + 1) u st = some (none, st) := by
  simp [fetch, hv]

theorem fetch_index (w : World) (fuel : Nat) (u : String) (st : FetchState)
    (entries : List String) (hv : u ∉ st.visited) (hi : IsIndex w u entries) :
    fetch w (fuel + 1) u st =
      forEntries (fetch w fuel) entries
        ⟨u :: st.visited, st.allURLs, st.requests ++ [u]⟩ := by
  obtain ⟨hne, code, data, hg, hd⟩ := hi
  cases entries with
  | nil => exact absurd rfl hne
  | cons e es => simp [fetch, hv, hg, hd]

theorem fetch_not_index (w : World) (fuel : Nat) (u : String) (st : FetchState)
    (code : Nat) (data : String) (hv : u ∉ st.visited)
    (hg : w.Get u = .ok ⟨code, .data data⟩)
    (hi : ∀ e es, w.unmarshalIndex data ≠ .ok (e :: es)) :
    fetch w (fuel + 1) u st =
      match w.unmarshalURLSet data with
      | .error e =>
        some (some ("failed to parse XML from " ++ u ++ ": " ++ e),
          ⟨u :: st.visited, st.allURLs, st.requests ++ [u]⟩)
      | .ok locs => some (none, ⟨u :: st.visited, st.allURLs ++ locs, st.requests ++ [u]⟩) := by
  unfold fetch
  simp only [hv, if_false, hg]

theorem fetch_urlset (w : World) (fuel : Nat) (u : String) (st : FetchState)
    (locs : List String) (hv : u ∉ st.visited) (hu : IsURLSet w u locs) :
    fetch w (fuel + 1) u st =
      some (none, ⟨u :: st.visited, st.allURLs ++ locs, st.requests ++ [u]⟩) := by
  obtain ⟨code, data, hg, hi, hd⟩ := hu
  rw [fetch_not_index w fuel u st code data hv hg hi, hd]

theorem contribution_index {w : World} {u : String} {entries : List String}
    (h : IsIndex w u entries) : contribution w u = [] := by
  obtain ⟨hne, code, data, hg, hd⟩ := h
  cases entries with
  | nil => exact absurd rfl hne
  | cons e es => simp [contribution, hg, hd]

theorem contribution_urlset {w : World} {u : String} {locs : List String}
    (h : IsURLSet w u locs) : contribution w u = locs := by
  obtain ⟨code, data, hg, hi, hd⟩ := h
  unfold contribution
  simp only [hg]
  cases hx : w.unmarshalIndex data with
  | error e0 => simp [hd]
  | ok entries =>
    cases entries with
    | nil => simp [hd]
    | cons e es => exact absurd hx (hi e es)

theorem contribution_neither {w : World} {u : String} {cause : String}
    (h : IsNeither w u cause) : contribution w u = [] := by
  obtain ⟨code, data, hg, hi, hd⟩ := h
  unfold contribution
  simp only [hg]
  cases hx : w.unmarshalIndex data with
  | error e0 => simp [hd]
  | ok entries =>
    cases entries with
    | nil => simp [hd]
    | cons e es => exact absurd hx (hi e es)

theorem directError_neither {w : World} {u : String} {cause : String}
    (h : IsNeither w u cause) :
    directError w u = some ("failed to parse XML from " ++ u ++ ": " ++ cause) := by
  obtain ⟨code, data, hg, hi, hd⟩ := h
  unfold directError
  simp only [hg]
  cases hx : w.unmarshalIndex data with
  | error e0 => simp [hd]
  | ok entries =>
    cases entries with
    | nil => simp [hd]
    | cons e es => exact absurd hx (hi e es)

/-- A document that contributes a page is a URL set. -/
theorem isURLSet_of_mem_contribution {w : World} {u x : String}
    (h : x ∈ contribution w u) : IsURLSet w u (contribution w u) := by
  unfold contribution at h ⊢
  cases hg : w.Get u with
  | err e => simp [hg] at h
  | ok resp =>
    obtain ⟨code, body⟩ := resp
    cases body with
    | err e => simp [hg] at h
    | data data =>
      simp only [hg] at h ⊢
      cases hx : w.unmarshalIndex data with
      | error e0 =>
        simp only [hx] at h ⊢
        cases hd : w.unmarshalURLSet data with
        | error e => simp [hd] at h
        | ok locs => exact ⟨code, data, hg, by simp [hx], hd⟩
      | ok entries =>
        cases entries with
        | cons e es => simp [hx] at h
        | nil =>
          simp only [hx] at h ⊢
          cases hd : w.unmarshalURLSet data with
          | error e => simp [hd] at h
          | ok locs => exact ⟨code, data, hg, by simp [hx], hd⟩

/-- Shape of a whole run: the log has no repetition, `visited` is the log, and
`allURLs` is the concatenation of what each fetched document contributes. -/
theorem run_ext {w : World} {fuel : Nat} {root : String} {err : Option String}
    {st : FetchState} (h : run w fuel root = some (err, st)) :
    Ext w FetchState.init st.requests err st := by
  obtain ⟨new, hn⟩ := fetch_ext w fuel root FetchState.init err st h
  have hr : st.requests = new := by simpa [FetchState.init] using hn.1
  rw [hr]
  exact hn

theorem index_or_urlset_of_no_error {w : World} {u : String} (h : directError w u = none) :
    (∃ entries, IsIndex w u entries) ∨ (∃ locs, IsURLSet w u locs) := by
  unfold directError at h
  cases hg : w.Get u with
  | err e => simp [hg] at h
  | ok resp =>
    obtain ⟨code, body⟩ := resp
    cases body with
    | err e => simp [hg] at h
    | data data =>
      simp only [hg] at h
      cases hx : w.unmarshalIndex data with
      | error e0 =>
        simp only [hx] at h
        cases hd : w.unmarshalURLSet data with
        | error e => simp [hd] at h
        | ok locs => exact Or.inr ⟨locs, code, data, hg, by simp [hx], hd⟩
      | ok entries =>
        cases entries with
        | cons e es => exact Or.inl ⟨e :: es, by simp, code, data, hg, hx⟩
        | nil =>
          simp only [hx] at h
          cases hd : w.unmarshalURLSet data with
          | error e => simp [hd] at h
          | ok locs => exact Or.inr ⟨locs, code, data, hg, by simp [hx], hd⟩

/-! ## Parse failures and the status of a response -/

/-- C2, as stated, fails: on a site whose root index lists a valid URL set with one
page and then a document that decodes neither as an index nor as a URL set,
`getUrlsFromSitemaps` returns the error naming the second document together with
the page of the first, not an empty list. -/
theorem partial_urls_returned_with_parse_error :
    IsNeither siteBadSecond "https://a.example/bad.xml" "EOF" ∧
    getUrlsFromSitemaps siteBadSecond 2 (urlOf "https://a.example/root.xml") =
      some (["https://a.example/p1"],
        some "failed to parse XML from https://a.example/bad.xml: EOF") := by
  refine ⟨⟨200, "garbage", by decide, ?_, rfl⟩, by decide⟩
  intro e es h
  simp [siteBadSecond] at h

/-- C2, amended: when a run fetched a document that decodes neither as a non-empty
index nor as a URL set, `getUrlsFromSitemaps` returns the error
`failed to parse XML from <url>: <cause>` naming that document, the document is the
last one fetched, and the returned list is the concatenation of the pages of the
URL sets fetched before it (it is not emptied). -/
theorem parse_error_names_document (w : World) (fuel : Nat) (root : URL)
    (err : Option String) (st : FetchState) (u cause : String)
    (h : run w fuel root.text = some (err, st)) (hu : u ∈ st.requests)
    (hn : IsNeither w u cause) :
    getUrlsFromSitemaps w fuel root =
      some (st.requests.dropLast.flatMap (contribution w),
        some ("failed to parse XML from " ++ u ++ ": " ++ cause)) ∧
    st.requests.getLast? = some u := by
  obtain ⟨-, -, ha, -, -, he, hok⟩ := run_ext h
  have hd := directError_neither hn
  cases err with
  | none =>
    have := hok rfl u hu
    rw [hd] at this
    cases this
  | some e =>
    obtain ⟨pre, last, hreq, hl, hp⟩ := he e rfl
    have hul : u = last := by
      rw [hreq] at hu
      rcases List.mem_append.1 hu with hm | hm
      · have := hp u hm
        rw [hd] at this
        cases this
      · exact List.mem_singleton.1 hm
    subst hul
    have hee : e = "failed to parse XML from " ++ u ++ ": " ++ cause := by
      rw [hd] at hl
      exact (Option.some.inj hl).symm
    refine ⟨?_, ?_⟩
    · simp only [getUrlsFromSitemaps, h, Option.map_some']
      rw [ha, hreq, hee]
      simp [FetchState.init, contribution_neither hn]
    · rw [hreq]
      simp

/-- Instance of the amended C2 on `siteBadSecond`. -/
theorem parse_error_names_document_witness :
    getUrlsFromSitemaps siteBadSecond 2 (urlOf "https://a.example/root.xml") =
      some ((["https://a.example/root.xml", "https://a.example/s1.xml",
          "https://a.example/bad.xml"] : List String).dropLast.flatMap
            (contribution siteBadSecond),
        some ("failed to parse XML from " ++ "https://a.example/bad.xml" ++ ": " ++ "EOF")) ∧
    (["https://a.example/root.xml", "https://a.example/s1.xml",
          "https://a.example/bad.xml"] : List String).getLast? =
      some "https://a.example/bad.xml" :=
  parse_error_names_document siteBadSecond 2 (urlOf "https://a.example/root.xml")
    (some "failed to parse XML from https://a.example/bad.xml: EOF")
    ⟨["https://a.example/bad.xml", "https://a.example/s1.xml", "https://a.example/root.xml"],
      ["https://a.example/p1"],
      ["https://a.example/root.xml", "https://a.example/s1.xml", "https://a.example/bad.xml"]⟩
    "https://a.example/bad.xml" "EOF" (by decide) (by decide)
    ⟨200, "garbage", by decide, by intro e es h; simp [siteBadSecond] at h, rfl⟩

theorem forEntries_congr
    {f g : String → FetchState → Option (Option String × FetchState)}
    (hfg : ∀ c st, f c st = g c st) :
    ∀ (cs : List String) (st : FetchState), forEntries f cs st = forEntries g cs st := by
  intro cs
  induction cs with
  | nil => intro st; rfl
  | cons c cs ih =>
    intro st
    unfold forEntries
    rw [hfg c st]
    cases g c st with
    | none => rfl
    | some r =>
      obtain ⟨e, s1⟩ := r
      cases e with
      | some e => rfl
      | none => exact ih s1

theorem fetch_setStatus (code : Nat) (w : World) :
    ∀ (fuel : Nat) (u : String) (st : FetchState),
      fetch (setStatus code w) fuel u st = fetch w fuel u st := by
  intro fuel
  induction fuel with
  | zero => intro u st; rfl
  | succ fuel ih =>
    intro u st
    unfold fetch
    by_cases hv : u ∈ st.visited
    · simp [hv]
    · simp only [hv, if_false]
      have hgs : (setStatus code w).Get u =
          match w.Get u with
          | .err e => .err e
          | .ok resp => .ok { resp with StatusCode := code } := rfl
      rw [hgs]
      cases hg : w.Get u with
      | err e => rfl
      | ok resp =>
        obtain ⟨c0, body⟩ := resp
        cases body with
        | err e => rfl
        | data data =>
          simp only
          have hi : (setStatus code w).unmarshalIndex = w.unmarshalIndex := rfl
          have hu : (setStatus code w).unmarshalURLSet = w.unmarshalURLSet := rfl
          rw [hi, hu]
          cases hx : w.unmarshalIndex data with
          | error e0 => rfl
          | ok entries =>
            cases entries with
            | nil => rfl
            | cons e es => exact forEntries_congr ih _ _

/-- C3: the status of a response is never read by `getUrlsFromSitemaps`: replacing
every status by any code leaves its result unchanged, and a response with status 404
whose body is a well-formed URL set is decoded and accepted, its page returned with
no error. -/
theorem non_2xx_response_accepted :
    (∀ (code : Nat) (w : World) (fuel : Nat) (root : URL),
      getUrlsFromSitemaps (setStatus code w) fuel root = getUrlsFromSitemaps w fuel root) ∧
    site404.Get "https://a.example/sitemap.xml" = .ok ⟨404, .data "urlset"⟩ ∧
    getUrlsFromSitemaps site404 1 (urlOf "https://a.example/sitemap.xml") =
      some (["https://a.example/gone"], none) := by
  refine ⟨?_, by decide, by decide⟩
  intro code w fuel root
  simp [getUrlsFromSitemaps, run, fetch_setStatus]

/-- C4: in a run of `getUrlsFromSitemaps` that returns, the log of `http.Get` calls
has no repetition, so every address in it was fetched exactly once; the visited set
is exactly the set of fetched addresses; and a later call of `fetch` on a visited
address returns `nil` at once, leaving the state (log included) untouched. -/
theorem each_sitemap_fetched_once (w : World) (fuel : Nat) (root : URL)
    (err : Option String) (st : FetchState)
    (h : run w fuel root.text = some (err, st)) :
    st.requests.Nodup ∧ (∀ u ∈ st.requests, st.requests.count u = 1) ∧
    st.visited = st.requests.reverse ∧
    (∀ (fuel' : Nat) (u : String), u ∈ st.visited →
      fetch w (fuel' + 1) u st = some (none, st)) := by
  obtain ⟨-, hv, -, hd, -, -, -⟩ := run_ext h
  refine ⟨hd, ?_, ?_, ?_⟩
  · intro u hu
    exact List.count_eq_one_of_mem hd hu
  · simpa [FetchState.init] using hv
  · intro fuel' u hu
    exact fetch_visited w fuel' u st hu

/-- Instance of C4 on the diamond: the URL set listed by both indexes (twice by the
second) occurs once in the log of the run. -/
theorem each_sitemap_fetched_once_witness :
    run siteDiamond 3 "https://a.example/root.xml" =
      some (none,
        ⟨["https://a.example/i2.xml", "https://a.example/leaf.xml", "https://a.example/i1.xml",
            "https://a.example/root.xml"],
          ["https://a.example/p"],
          ["https://a.example/root.xml", "https://a.example/i1.xml",
            "https://a.example/leaf.xml", "https://a.example/i2.xml"]⟩) ∧
    (["https://a.example/root.xml", "https://a.example/i1.xml", "https://a.example/leaf.xml",
        "https://a.example/i2.xml"] : List String).count "https://a.example/leaf.xml" = 1 :=
  ⟨by decide,
    (each_sitemap_fetched_once siteDiamond 3 (urlOf "https://a.example/root.xml") none
      ⟨["https://a.example/i2.xml", "https://a.example/leaf.xml", "https://a.example/i1.xml",
          "https://a.example/root.xml"],
        ["https://a.example/p"],
        ["https://a.example/root.xml", "https://a.example/i1.xml", "https://a.example/leaf.xml",
          "https://a.example/i2.xml"]⟩
      (by decide)).2.1 "https://a.example/leaf.xml" (by decide)⟩

theorem forEntries_append_fail
    (f : String → FetchState → Option (Option String × FetchState)) :
    ∀ (pre : List String) (c : String) (post : List String) (st st1 st2 : FetchState)
      (e : String), forEntries f pre st = some (none, st1) → f c st1 = some (some e, st2) →
      forEntries f (pre ++ c :: post) st = some (some e, st2) := by
  intro pre
  induction pre with
  | nil =>
    intro c post st st1 st2 e h1 h2
    simp only [forEntries, Option.some.injEq, Prod.mk.injEq, true_and] at h1
    subst h1
    simp [forEntries, h2]
  | cons p pre ih =>
    intro c post st st1 st2 e h1 h2
    simp only [List.cons_append]
    unfold forEntries at h1 ⊢
    cases hp : f p st with
    | none => simp [hp] at h1
    | some r =>
      obtain ⟨e1, s1⟩ := r
      cases e1 with
      | some e' => simp [hp] at h1
      | none =>
        simp only [hp] at h1 ⊢
        exact ih c post s1 st1 st2 e h1 h2

/-- C6: (1) when `fetch` expands an index whose entries are `pre ++ c :: post`, the
entries `pre` all succeed and the call on `c` fails with `e` in state `st2`, the call
on the index returns `e` and exactly the state `st2`: no entry of `post` is fetched
and nothing else changes; since the parent's call fails in turn with the same error
and state, the same holds for the entries after it in every ancestor.
(2) When a whole run returns an error, that error is the one raised by the last
document fetched, and every document fetched before it raised none. -/
theorem abort_at_first_failing_child :
    (∀ (w : World) (fuel : Nat) (u : String) (st : FetchState) (pre : List String)
        (c : String) (post : List String) (e : String) (st1 st2 : FetchState),
      u ∉ st.visited → IsIndex w u (pre ++ c :: post) →
      forEntries (fetch w fuel) pre ⟨u :: st.visited, st.allURLs, st.requests ++ [u]⟩ =
        some (none, st1) →
      fetch w fuel c st1 = some (some e, st2) →
      fetch w (fuel + 1) u st = some (some e, st2)) ∧
    (∀ (w : World) (fuel : Nat) (root : URL) (urls : List String) (e : String),
      getUrlsFromSitemaps w fuel root = some (urls, some e) →
      ∃ st pre last, run w fuel root.text = some (some e, st) ∧
        st.requests = pre ++ [last] ∧ directError w last = some e ∧
        ∀ x ∈ pre, directError w x = none) := by
  constructor
  · intro w fuel u st pre c post e st1 st2 hv hi h1 h2
    rw [fetch_index w fuel u st _ hv hi]
    exact forEntries_append_fail _ pre c post _ st1 st2 e h1 h2
  · intro w fuel root urls e h
    unfold getUrlsFromSitemaps at h
    cases hr : run w fuel root.text with
    | none => simp [hr] at h
    | some r =>
      obtain ⟨err, st⟩ := r
      simp only [hr, Option.map_some', Option.some.injEq, Prod.mk.injEq] at h
      obtain ⟨-, rfl⟩ := h
      obtain ⟨-, -, -, -, -, he, -⟩ := run_ext hr
      obtain ⟨pre, last, h1, h2, h3⟩ := he e rfl
      exact ⟨st, pre, last, rfl, h1, h2, h3⟩

/-- Instance of C6 on `siteFailMiddle`: the root lists a URL set, a document that
cannot be fetched and another URL set; the run fetches the first two and stops, the
third is never asked for. -/
theorem abort_at_first_failing_child_witness :
    fetch siteFailMiddle 2 "https://a.example/root.xml" FetchState.init =
      some (some "failed to fetch https://a.example/down.xml: no such host",
        ⟨["https://a.example/down.xml", "https://a.example/s1.xml",
            "https://a.example/root.xml"],
          ["https://a.example/p1"],
          ["https://a.example/root.xml", "https://a.example/s1.xml",
            "https://a.example/down.xml"]⟩) :=
  abort_at_first_failing_child.1 siteFailMiddle 1 "https://a.example/root.xml"
    FetchState.init ["https://a.example/s1.xml"] "https://a.example/down.xml"
    ["https://a.example/s2.xml"] "failed to fetch https://a.example/down.xml: no such host"
    ⟨["https://a.example/s1.xml", "https://a.example/root.xml"], ["https://a.example/p1"],
      ["https://a.example/root.xml", "https://a.example/s1.xml"]⟩
    ⟨["https://a.example/down.xml", "https://a.example/s1.xml", "https://a.example/root.xml"],
      ["https://a.example/p1"],
      ["https://a.example/root.xml", "https://a.example/s1.xml", "https://a.example/down.xml"]⟩
    (by decide) ⟨by decide, 200, "root", by decide, rfl⟩ (by decide) (by decide)

/-- C7: `checkKeyFileIntegrity` returns `nil` exactly when the GET of
`scheme://host/<key>.txt` gives a response with status 200 whose body can be read and,
trimmed of surrounding white space, equals the key.  A body `abc123` followed by
white space passes for key `abc123`; a body `abc124` does not. -/
theorem checkKeyFileIntegrity_nil_iff :
    (∀ (w : World) (key : String) (siteUrl : URL),
      checkKeyFileIntegrity w key siteUrl = none ↔
        ∃ body, w.Get (siteUrl.Scheme ++ "://" ++ siteUrl.Host ++ "/" ++ key ++ ".txt") =
            .ok ⟨200, .data body⟩ ∧ TrimSpace body = key) ∧
    (siteKey.Get "https://a.example/abc123.txt" = .ok ⟨200, .data "abc123 \r\n"⟩ ∧
      checkKeyFileIntegrity siteKey "abc123" (urlOf "https://a.example/sitemap.xml") = none) ∧
    (siteWrongKey.Get "https://a.example/abc123.txt" = .ok ⟨200, .data "abc124"⟩ ∧
      checkKeyFileIntegrity siteWrongKey "abc123" (urlOf "https://a.example/sitemap.xml") =
        some "Unable to read the response body: <nil>") := by
  refine ⟨?_, ⟨by decide, by decide⟩, ⟨by decide, by decide⟩⟩
  intro w key siteUrl
  unfold checkKeyFileIntegrity keyFileUrl
  cases hg : w.Get (siteUrl.Scheme ++ "://" ++ siteUrl.Host ++ "/" ++ key ++ ".txt") with
  | err e => simp
  | ok res =>
    obtain ⟨code, body⟩ := res
    by_cases hc : code = 200
    · subst hc
      cases body with
      | err e => simp
      | data b => simp
    · simp [hc]

/-- C9: (1) a fetched document whose index decoding succeeds with at least one entry
is expanded as an index whatever its decoding as a URL set gives: the call is the
loop over its entries, started with `allURLs` unchanged.  (2) A fetched document
whose index decoding fails or gives no entry is decoded as a URL set, and on success
its locations are appended.  (3) In every run the returned list is the concatenation,
over the fetched documents, of the locations of those taken as URL sets, a document
expanded as an index contributing nothing; so every returned string is a location of
a fetched document that was taken as a URL set. -/
theorem index_when_entries_else_urlset :
    (∀ (w : World) (fuel : Nat) (u : String) (st : FetchState) (code : Nat)
        (data : String) (e : String) (es : List String),
      u ∉ st.visited → w.Get u = .ok ⟨code, .data data⟩ →
      w.unmarshalIndex data = .ok (e :: es) →
      fetch w (fuel + 1) u st =
        forEntries (fetch w fuel) (e :: es)
          ⟨u :: st.visited, st.allURLs, st.requests ++ [u]⟩) ∧
    (∀ (w : World) (fuel : Nat) (u : String) (st : FetchState) (code : Nat)
        (data : String) (locs : List String),
      u ∉ st.visited → w.Get u = .ok ⟨code, .data data⟩ →
      (∀ e es, w.unmarshalIndex data ≠ .ok (e :: es)) →
      w.unmarshalURLSet data = .ok locs →
      fetch w (fuel + 1) u st =
        some (none, ⟨u :: st.visited, st.allURLs ++ locs, st.requests ++ [u]⟩)) ∧
    (∀ (w : World) (fuel : Nat) (root : URL) (urls : List String) (err : Option String),
      getUrlsFromSitemaps w fuel root = some (urls, err) →
      ∃ st, run w fuel root.text = some (err, st) ∧
        urls = st.requests.flatMap (contribution w) ∧
        (∀ u entries, IsIndex w u entries → contribution w u = []) ∧
        (∀ u locs, IsURLSet w u locs → contribution w u = locs) ∧
        ∀ x ∈ urls, ∃ u ∈ st.requests, ∃ locs, IsURLSet w u locs ∧ x ∈ locs) := by
  refine ⟨?_, ?_, ?_⟩
  · intro w fuel u st code data e es hv hg hi
    exact fetch_index w fuel u st (e :: es) hv ⟨by simp, code, data, hg, hi⟩
  · intro w fuel u st code data locs hv hg hi hd
    exact fetch_urlset w fuel u st locs hv ⟨code, data, hg, hi, hd⟩
  · intro w fuel root urls err h
    unfold getUrlsFromSitemaps at h
    cases hr : run w fuel root.text with
    | none => simp [hr] at h
    | some r =>
      obtain ⟨err', st⟩ := r
      simp only [hr, Option.map_some', Option.some.injEq, Prod.mk.injEq] at h
      obtain ⟨rfl, rfl⟩ := h
      obtain ⟨-, -, ha, -, -, -, -⟩ := run_ext hr
      have ha' : st.allURLs = st.requests.flatMap (contribution w) := by
        simpa [FetchState.init] using ha
      refine ⟨st, rfl, ha', fun u entries hi => contribution_index hi,
        fun u locs hu => contribution_urlset hu, ?_⟩
      intro x hx
      rw [ha'] at hx
      obtain ⟨u, hu, hxu⟩ := List.mem_flatMap.1 hx
      exact ⟨u, hu, contribution w u, isURLSet_of_mem_contribution hxu, hxu⟩

/-- Instance of C9 on `siteMixed`: the root document has sitemap entries and, read as
a URL set, a page of its own; the call on it is the loop over its sitemap entries
with nothing appended. -/
theorem index_when_entries_else_urlset_witness :
    siteMixed.unmarshalURLSet "root" = .ok ["https://a.example/own"] ∧
    fetch siteMixed 3 "https://a.example/root.xml" FetchState.init =
      forEntries (fetch siteMixed 2) ["https://a.example/s1.xml", "https://a.example/s2.xml"]
        ⟨["https://a.example/root.xml"], [], ["https://a.example/root.xml"]⟩ :=
  ⟨rfl, index_when_entries_else_urlset.1 siteMixed 2 "https://a.example/root.xml"
    FetchState.init 200 "root" "https://a.example/s1.xml" ["https://a.example/s2.xml"]
    (by decide) (by decide) rfl⟩

/-- C10: page locations are not deduplicated.  On a run that returns no error the
returned list is the concatenation of the locations of every fetched URL set, so its
length is the sum of their numbers of entries and every string occurs in it as often
as in all of them together; each fetched document is either expanded as an index
(contributing nothing) or taken as a URL set (contributing all its locations). -/
theorem page_urls_not_deduplicated (w : World) (fuel : Nat) (root : URL)
    (st : FetchState) (h : run w fuel root.text = some (none, st)) :
    getUrlsFromSitemaps w fuel root = some (st.requests.flatMap (contribution w), none) ∧
    st.allURLs.length = (st.requests.map fun u => (contribution w u).length).sum ∧
    (∀ x, st.allURLs.count x = (st.requests.map fun u => (contribution w u).count x).sum) ∧
    (∀ u ∈ st.requests,
      (∃ entries, IsIndex w u entries ∧ contribution w u = []) ∨
      (∃ locs, IsURLSet w u locs ∧ contribution w u = locs)) := by
  obtain ⟨-, -, ha, -, -, -, hok⟩ := run_ext h
  have ha' : st.allURLs = st.requests.flatMap (contribution w) := by
    simpa [FetchState.init] using ha
  refine ⟨?_, ?_, ?_, ?_⟩
  · simp [getUrlsFromSitemaps, h, ha']
  · rw [ha', List.length_flatMap]
    rfl
  · intro x
    rw [ha', List.count_flatMap]
    rfl
  · intro u hu
    rcases index_or_urlset_of_no_error (hok rfl u hu) with ⟨entries, hi⟩ | ⟨locs, hl⟩
    · exact Or.inl ⟨entries, hi, contribution_index hi⟩
    · exact Or.inr ⟨locs, hl, contribution_urlset hl⟩

/-- Instance of C10 on `siteMixed`: one page is listed twice by the first URL set and
once by the second, and comes back three times among four results. -/
theorem page_urls_not_deduplicated_witness :
    getUrlsFromSitemaps siteMixed 2 (urlOf "https://a.example/root.xml") =
      some (["https://a.example/p", "https://a.example/p", "https://a.example/q",
        "https://a.example/p"], none) := by
  have h := (page_urls_not_deduplicated siteMixed 2 (urlOf "https://a.example/root.xml")
    ⟨["https://a.example/s2.xml", "https://a.example/s1.xml", "https://a.example/root.xml"],
      ["https://a.example/p", "https://a.example/p", "https://a.example/q",
        "https://a.example/p"],
      ["https://a.example/root.xml", "https://a.example/s1.xml", "https://a.example/s2.xml"]⟩
    (by decide)).1
  rw [h]
  decide

/-! ## Runs on a tree -/

theorem SitemapTree.depth_pos (t : SitemapTree) : 0 < t.depth := by
  cases t <;> simp [SitemapTree.depth]

theorem forEntries_trees (w : World) (fuel : Nat)
    (ih : ∀ (t : SitemapTree) (st : FetchState), Realizes w t → t.nodes.Nodup →
      (∀ x ∈ t.nodes, x ∉ st.visited) → t.depth ≤ fuel →
      fetch w fuel t.url st =
        some (none, ⟨t.nodes.reverse ++ st.visited, st.allURLs ++ t.pages,
          st.requests ++ t.nodes⟩)) :
    ∀ (cs : List SitemapTree) (st : FetchState), RealizesList w cs →
      (SitemapTree.nodesList cs).Nodup →
      (∀ x ∈ SitemapTree.nodesList cs, x ∉ st.visited) →
      SitemapTree.depthList cs ≤ fuel →
      forEntries (fetch w fuel) (cs.map SitemapTree.url) st =
        some (none, ⟨(SitemapTree.nodesList cs).reverse ++ st.visited,
          st.allURLs ++ SitemapTree.pagesList cs,
          st.requests ++ SitemapTree.nodesList cs⟩) := by
  intro cs
  induction cs with
  | nil =>
    intro st _ _ _ _
    simp [forEntries, SitemapTree.nodesList, SitemapTree.pagesList]
  | cons t ts iht =>
    intro st hr hd hv hf
    simp only [RealizesList] at hr
    simp only [SitemapTree.nodesList] at hd hv
    simp only [SitemapTree.depthList] at hf
    rw [List.nodup_append] at hd
    obtain ⟨hdt, hdts, hdisj⟩ := hd
    have h1 := ih t st hr.1 hdt (fun x hx => hv x (List.mem_append_left _ hx))
      (le_trans (le_max_left _ _) hf)
    have h2 := iht ⟨t.nodes.reverse ++ st.visited, st.allURLs ++ t.pages,
        st.requests ++ t.nodes⟩ hr.2 hdts
      (by
        intro x hx hm
        simp only [List.mem_append, List.mem_reverse] at hm
        rcases hm with hm | hm
        · exact hdisj hm hx
        · exact hv x (List.mem_append_right _ hx) hm)
      (le_trans (le_max_right _ _) hf)
    simp only [List.map_cons, forEntries, h1, h2, SitemapTree.nodesList,
      SitemapTree.pagesList, List.reverse_append, List.append_assoc]

theorem fetch_tree (w : World) :
    ∀ (fuel : Nat) (t : SitemapTree) (st : FetchState), Realizes w t → t.nodes.Nodup →
      (∀ x ∈ t.nodes, x ∉ st.visited) → t.depth ≤ fuel →
      fetch w fuel t.url st =
        some (none, ⟨t.nodes.reverse ++ st.visited, st.allURLs ++ t.pages,
          st.requests ++ t.nodes⟩) := by
  intro fuel
  induction fuel with
  | zero =>
    intro t st _ _ _ hf
    exact absurd t.depth_pos (by omega)
  | succ fuel ih =>
    intro t st hr hd hv hf
    cases t with
    | urlset u locs =>
      simp only [Realizes] at hr
      simp only [SitemapTree.nodes, List.mem_singleton, forall_eq] at hv
      simp only [SitemapTree.url, SitemapTree.nodes, SitemapTree.pages]
      rw [fetch_urlset w fuel u st locs hv hr]
      simp
    | index u cs =>
      simp only [Realizes] at hr
      simp only [SitemapTree.nodes, List.nodup_cons] at hd
      simp only [SitemapTree.nodes, List.mem_cons, forall_eq_or_imp] at hv
      simp only [SitemapTree.depth, Nat.add_le_add_iff_right] at hf
      simp only [SitemapTree.url, SitemapTree.nodes, SitemapTree.pages]
      rw [fetch_index w fuel u st _ hv.1 hr.1]
      rw [forEntries_trees w fuel ih cs _ hr.2 hd.2
        (by
          intro x hx hm
          simp only [List.mem_cons] at hm
          rcases hm with hm | hm
          · exact hd.1 (hm ▸ hx)
          · exact hv.2 x hx hm)
        hf]
      simp

/-- C1: let a world serve a finite sitemap tree (every index node decodes as an index
whose entries are its children, every leaf is a valid URL set) in which all sitemap
addresses are pairwise distinct (no cycle, every child listed once).  Then
`getUrlsFromSitemaps` on the root, with a depth bound of at least the depth of the
tree, returns no error and exactly the locations of the leaves in depth-first
pre-order: children in the order listed, locations in document order. -/
theorem aggregate_tree_preorder (w : World) (t : SitemapTree) (fuel : Nat) (root : URL)
    (hroot : root.text = t.url) (hr : Realizes w t) (hd : t.nodes.Nodup)
    (hf : t.depth ≤ fuel) :
    getUrlsFromSitemaps w fuel root = some (t.pages, none) := by
  have h := fetch_tree w fuel t FetchState.init hr hd (by simp [FetchState.init]) hf
  unfold getUrlsFromSitemaps run
  rw [hroot, h]
  simp [FetchState.init]

/-- Instance of C1: a root index with two URL sets of three and two pages yields the
five pages, those of the first child first. -/
theorem aggregate_tree_preorder_witness :
    getUrlsFromSitemaps siteTwoLeaves 2 (urlOf "https://a.example/root.xml") =
      some (["https://a.example/p1", "https://a.example/p2", "https://a.example/p3",
        "https://a.example/p4", "https://a.example/p5"], none) :=
  aggregate_tree_preorder siteTwoLeaves treeTwoLeaves 2 (urlOf "https://a.example/root.xml")
    rfl
    (by
      simp only [treeTwoLeaves, Realizes, RealizesList, and_true]
      refine ⟨⟨by decide, 200, "root", by decide, rfl⟩,
        ⟨200, "s1", by decide, ?_, rfl⟩, ⟨200, "s2", by decide, ?_, rfl⟩⟩
      · intro e es h
        simp [siteTwoLeaves] at h
      · intro e es h
        simp [siteTwoLeaves] at h)
    (by decide) (by decide)

/-! ## Termination -/

theorem unvisited_mono (S : List String) {v v' : List String} (h : v ⊆ v') :
    unvisited S v' ≤ unvisited S v := by
  unfold unvisited
  apply List.countP_mono_left
  intro x _ hx
  simp only [decide_eq_true_eq] at hx ⊢
  exact fun hm => hx (h hm)

theorem countP_lt_of_mem (p' p : String → Bool) (hle : ∀ x, p' x = true → p x = true)
    (u : String) (hp : p u = true) (hp' : p' u = false) :
    ∀ S : List String, u ∈ S → S.countP p' < S.countP p := by
  intro S
  induction S with
  | nil => intro hS; simp at hS
  | cons a S ih =>
    intro hS
    have hm : S.countP p' ≤ S.countP p := List.countP_mono_left fun x _ => hle x
    rw [List.countP_cons, List.countP_cons]
    by_cases hau : a = u
    · subst hau
      rw [if_neg (by simp [hp']), if_pos hp]
      omega
    · have hS' : u ∈ S := by
        rcases List.mem_cons.1 hS with h | h
        · exact absurd h.symm hau
        · exact h
      have ih' := ih hS'
      by_cases h1 : p' a = true
      · rw [if_pos h1, if_pos (hle a h1)]
        omega
      · rw [if_neg h1]
        omega

theorem unvisited_cons_lt (S : List String) {v : List String} {u : String}
    (hS : u ∈ S) (hv : u ∉ v) : unvisited S (u :: v) < unvisited S v := by
  unfold unvisited
  apply countP_lt_of_mem _ _ _ u _ _ S hS
  · intro x hx
    simp only [decide_eq_true_eq] at hx ⊢
    exact fun hm => hx (List.mem_cons_of_mem _ hm)
  · simpa using hv
  · simp

theorem unvisited_le_length (S v : List String) : unvisited S v ≤ S.length :=
  List.countP_le_length _

theorem forEntries_terminates
    (f : String → FetchState → Option (Option String × FetchState))
    (S v0 : List String)
    (hf : ∀ c ∈ S, ∀ st : FetchState, v0 ⊆ st.visited →
      ∃ err st', f c st = some (err, st') ∧ st.visited ⊆ st'.visited) :
    ∀ (cs : List String) (st : FetchState), (∀ c ∈ cs, c ∈ S) → v0 ⊆ st.visited →
      ∃ err st', forEntries f cs st = some (err, st') ∧ st.visited ⊆ st'.visited := by
  intro cs
  induction cs with
  | nil =>
    intro st _ _
    exact ⟨none, st, rfl, List.Subset.refl _⟩
  | cons c cs ih =>
    intro st hcs hv
    obtain ⟨err, st1, h1, hs1⟩ := hf c (hcs c (List.mem_cons_self _ _)) st hv
    cases err with
    | some e =>
      exact ⟨some e, st1, by simp [forEntries, h1], hs1⟩
    | none =>
      obtain ⟨err2, st2, h2, hs2⟩ :=
        ih st1 (fun x hx => hcs x (List.mem_cons_of_mem _ hx)) (hv.trans hs1)
      exact ⟨err2, st2, by simp [forEntries, h1, h2], hs1.trans hs2⟩

theorem fetch_terminates (w : World) (S : List String) (hS : Closed w S) :
    ∀ (fuel : Nat) (u : String) (st : FetchState), u ∈ S → unvisited S st.visited < fuel →
      ∃ err st', fetch w fuel u st = some (err, st') ∧ st.visited ⊆ st'.visited := by
  intro fuel
  induction fuel with
  | zero => intro u st _ h; omega
  | succ fuel ih =>
    intro u st hu hlt
    by_cases hv : u ∈ st.visited
    · exact ⟨none, st, fetch_visited w fuel u st hv, List.Subset.refl _⟩
    · have hsub : st.visited ⊆ u :: st.visited := List.subset_cons_self _ _
      have hlt' : unvisited S (u :: st.visited) < fuel := by
        have := unvisited_cons_lt S hu hv
        omega
      unfold fetch
      simp only [hv, if_false]
      cases hg : w.Get u with
      | err e => exact ⟨_, _, rfl, hsub⟩
      | ok resp =>
        obtain ⟨code, body⟩ := resp
        cases body with
        | err e => exact ⟨_, _, rfl, hsub⟩
        | data data =>
          simp only
          cases hi : w.unmarshalIndex data with
          | error e0 =>
            simp only
            cases hd : w.unmarshalURLSet data with
            | error e => exact ⟨_, _, rfl, hsub⟩
            | ok locs => exact ⟨_, _, rfl, hsub⟩
          | ok entries =>
            cases entries with
            | nil =>
              simp only
              cases hd : w.unmarshalURLSet data with
              | error e => exact ⟨_, _, rfl, hsub⟩
              | ok locs => exact ⟨_, _, rfl, hsub⟩
            | cons e es =>
              simp only
              have hch : ∀ c ∈ e :: es, c ∈ S := by
                intro c hc
                apply hS u hu c
                simpa [children, hg, hi] using hc
              obtain ⟨err, st', h1, h2⟩ :=
                forEntries_terminates (fetch w fuel) S (u :: st.visited)
                  (fun c hc st0 hv0 =>
                    ih c st0 hc (lt_of_le_of_lt (unvisited_mono S hv0) hlt'))
                  (e :: es) ⟨u :: st.visited, st.allURLs, st.requests ++ [u]⟩ hch
                  (List.Subset.refl _)
              exact ⟨err, st', h1, hsub.trans h2⟩

theorem forEntries_mono
    {f g : String → FetchState → Option (Option String × FetchState)}
    (hfg : ∀ c st r, f c st = some r → g c st = some r) :
    ∀ (cs : List String) (st : FetchState) (r : Option String × FetchState),
      forEntries f cs st = some r → forEntries g cs st = some r := by
  intro cs
  induction cs with
  | nil => intro st r h; simpa [forEntries] using h
  | cons c cs ih =>
    intro st r h
    unfold forEntries at h ⊢
    cases hc : f c st with
    | none => simp [hc] at h
    | some r1 =>
      obtain ⟨e1, s1⟩ := r1
      rw [hfg c st _ hc]
      cases e1 with
      | some e => simpa [hc] using h
      | none =>
        simp only [hc] at h
        exact ih s1 r h

theorem fetch_succ (w : World) :
    ∀ (fuel : Nat) (u : String) (st : FetchState) (r : Option String × FetchState),
      fetch w fuel u st = some r → fetch w (fuel + 1) u st = some r := by
  intro fuel
  induction fuel with
  | zero => intro u st r h; simp [fetch] at h
  | succ fuel ih =>
    intro u st r h
    unfold fetch at h ⊢
    by_cases hv : u ∈ st.visited
    · simpa [hv] using h
    · simp only [hv, if_false] at h ⊢
      cases hg : w.Get u with
      | err e => simpa [hg] using h
      | ok resp =>
        obtain ⟨code, body⟩ := resp
        cases body with
        | err e => simpa [hg] using h
        | data data =>
          simp only [hg] at h ⊢
          cases hi : w.unmarshalIndex data with
          | error e0 => simpa [hi] using h
          | ok entries =>
            cases entries with
            | nil => simpa [hi] using h
            | cons e es =>
              simp only [hi] at h ⊢
              exact forEntries_mono ih _ _ _ h

theorem fetch_mono (w : World) (fuel : Nat) (u : String) (st : FetchState)
    (r : Option String × FetchState) (h : fetch w fuel u st = some r) :
    ∀ fuel', fuel ≤ fuel' → fetch w fuel' u st = some r := by
  intro fuel' hle
  induction fuel' with
  | zero =>
    have : fuel = 0 := by omega
    subst this
    exact h
  | succ n ih =>
    by_cases hn : fuel ≤ n
    · exact fetch_succ w n u st r (ih hn)
    · have : fuel = n + 1 := by omega
      subst this
      exact h

/-- C5: (1) if the sitemap addresses reachable from the root lie in a finite list `S`
(closed under the entries of every document expanded as an index, cycles and
self-references allowed), `getUrlsFromSitemaps` returns: every depth bound above the
length of `S` suffices, and all of them give the same result.  (2) A call of `fetch`
on an address already visited returns `nil` without touching the state.  (3) With
index A listing a URL set and index B, and B listing A, the call on A returns no
error and the page of the URL set. -/
theorem aggregation_terminates :
    (∀ (w : World) (S : List String) (root : URL), root.text ∈ S → Closed w S →
      ∃ urls err, ∀ fuel, S.length < fuel →
        getUrlsFromSitemaps w fuel root = some (urls, err)) ∧
    (∀ (w : World) (fuel : Nat) (u : String) (st : FetchState), u ∈ st.visited →
      fetch w (fuel + 1) u st = some (none, st)) ∧
    getUrlsFromSitemaps siteCycle 3 (urlOf "https://a.example/A.xml") =
      some (["https://a.example/p"], none) := by
  refine ⟨?_, fun w fuel u st hv => fetch_visited w fuel u st hv, by decide⟩
  intro w S root hroot hS
  obtain ⟨err, st, h, -⟩ := fetch_terminates w S hS (S.length + 1) root.text FetchState.init
    hroot (Nat.lt_succ_of_le (unvisited_le_length S _))
  refine ⟨st.allURLs, err, ?_⟩
  intro fuel hf
  have := fetch_mono w _ _ _ _ h fuel (by omega)
  simp [getUrlsFromSitemaps, run, this]

/-- Instance of C5 on the cycle A, B: the three addresses form a closed list, so the
run returns for every depth bound above three. -/
theorem aggregation_terminates_witness :
    ∃ urls err, ∀ fuel,
      (["https://a.example/A.xml", "https://a.example/leaf.xml",
        "https://a.example/B.xml"] : List String).length < fuel →
      getUrlsFromSitemaps siteCycle fuel (urlOf "https://a.example/A.xml") =
        some (urls, err) :=
  aggregation_terminates.1 siteCycle
    ["https://a.example/A.xml", "https://a.example/leaf.xml", "https://a.example/B.xml"]
    (urlOf "https://a.example/A.xml") (by decide) (by unfold Closed; decide)

/-! ## The submission body: encoding and decoding -/

theorem char_valid (c : Char) : ValidRune c.toNat := by
  have := c.valid
  unfold ValidRune
  simpa [UInt32.isValidChar, Nat.isValidChar, Char.toNat] using this

theorem decodeRune_two (s0 s1 : Nat) (t : Bytes) (h0 : 0xC2 ≤ s0) (h0' : s0 < 0xE0)
    (h1 : 0x80 ≤ s1) (h1' : s1 ≤ 0xBF) :
    decodeRune (s0 :: s1 :: t) = (s0 % 32 * 64 + s1 % 64, 2) := by
  have a1 : ¬ s0 < 0x80 := by omega
  have a2 : ¬ (s0 < 0xC2 ∨ 0xF4 < s0) := by omega
  have a4 : ¬ s0 = 0xE0 := by omega
  have a5 : ¬ s0 = 0xF0 := by omega
  have a6 : ¬ s0 = 0xED := by omega
  have a7 : ¬ s0 = 0xF4 := by omega
  have a8 : ¬ (s1 < 0x80 ∨ 0xBF < s1) := by omega
  simp only [decodeRune, a1, a2, h0', a4, a5, a6, a7, a8, if_true, if_false]

theorem decodeRune_three (s0 s1 s2 : Nat) (t : Bytes) (h0 : 0xE0 ≤ s0) (h0' : s0 < 0xF0)
    (h1 : (if s0 = 0xE0 then 0xA0 else 0x80) ≤ s1)
    (h1' : s1 ≤ (if s0 = 0xED then 0x9F else 0xBF))
    (h2 : 0x80 ≤ s2) (h2' : s2 ≤ 0xBF) :
    decodeRune (s0 :: s1 :: s2 :: t) = (s0 % 16 * 4096 + s1 % 64 * 64 + s2 % 64, 3) := by
  have a1 : ¬ s0 < 0x80 := by omega
  have a2 : ¬ (s0 < 0xC2 ∨ 0xF4 < s0) := by omega
  have a3 : ¬ s0 < 0xE0 := by omega
  have a5 : ¬ s0 = 0xF0 := by omega
  have a7 : ¬ s0 = 0xF4 := by omega
  have a9 : isCont s2 = true := by simp [isCont, h2, h2']
  have a8 : ¬ (s1 < (if s0 = 0xE0 then 0xA0 else 0x80) ∨
      (if s0 = 0xED then 0x9F else 0xBF) < s1) := by omega
  simp only [decodeRune, a1, a2, a3, h0', a5, a7, a8, a9, if_true, if_false, Bool.not_true,
    Bool.false_eq_true]

theorem decodeRune_four (s0 s1 s2 s3 : Nat) (t : Bytes) (h0 : 0xF0 ≤ s0) (h0' : s0 ≤ 0xF4)
    (h1 : (if s0 = 0xF0 then 0x90 else 0x80) ≤ s1)
    (h1' : s1 ≤ (if s0 = 0xF4 then 0x8F else 0xBF))
    (h2 : 0x80 ≤ s2) (h2' : s2 ≤ 0xBF) (h3 : 0x80 ≤ s3) (h3' : s3 ≤ 0xBF) :
    decodeRune (s0 :: s1 :: s2 :: s3 :: t) =
      (s0 % 8 * 262144 + s1 % 64 * 4096 + s2 % 64 * 64 + s3 % 64, 4) := by
  have a1 : ¬ s0 < 0x80 := by omega
  have a2 : ¬ (s0 < 0xC2 ∨ 0xF4 < s0) := by omega
  have a3 : ¬ s0 < 0xE0 := by omega
  have a4 : ¬ s0 < 0xF0 := by omega
  have a5 : ¬ s0 = 0xE0 := by omega
  have a7 : ¬ s0 = 0xED := by omega
  have a9 : isCont s2 = true := by simp [isCont, h2, h2']
  have a10 : isCont s3 = true := by simp [isCont, h3, h3']
  have a8 : ¬ (s1 < (if s0 = 0xF0 then 0x90 else 0x80) ∨
      (if s0 = 0xF4 then 0x8F else 0xBF) < s1) := by omega
  simp only [decodeRune, a1, a2, a3, a4, a5, a7, a8, a9, a10, if_true, if_false, Bool.not_true,
    Bool.false_eq_true]

theorem decodeRune_encodeRune (n : Nat) (hv : ValidRune n) (rest : Bytes) :
    decodeRune (encodeRune n ++ rest) = (n, (encodeRune n).length) := by
  unfold ValidRune at hv
  unfold encodeRune
  by_cases h1 : n < 0x80
  · simp [h1, decodeRune]
  · by_cases h2 : n < 0x800
    · simp only [h1, h2, if_true, if_false, List.cons_append, List.nil_append,
        List.length_cons, List.length_nil]
      rw [decodeRune_two _ _ _ (by omega) (by omega) (by omega) (by omega)]
      congr 1
      omega
    · have h3 : ¬ ((0xD800 ≤ n ∧ n ≤ 0xDFFF) ∨ 0x10FFFF < n) := by omega
      by_cases h4 : n < 0x10000
      · simp only [h1, h2, h3, h4, if_true, if_false, List.cons_append, List.nil_append,
          List.length_cons, List.length_nil]
        rw [decodeRune_three _ _ _ _ (by omega) (by omega) (by split_ifs <;> omega)
          (by split_ifs <;> omega) (by omega) (by omega)]
        congr 1
        omega
      · simp only [h1, h2, h3, h4, if_true, if_false, List.cons_append, List.nil_append,
          List.length_cons, List.length_nil]
        rw [decodeRune_four _ _ _ _ _ (by omega) (by omega) (by split_ifs <;> omega)
          (by split_ifs <;> omega) (by omega) (by omega) (by omega) (by omega)]
        congr 1
        omega



theorem encodeRune_head (n : Nat) (h : 0x80 ≤ n) :
    ∃ b t, encodeRune n = b :: t ∧ 0x80 ≤ b := by
  unfold encodeRune
  split_ifs
  · omega
  · exact ⟨_, _, rfl, by omega⟩
  · exact ⟨_, _, rfl, by omega⟩
  · exact ⟨_, _, rfl, by omega⟩
  · exact ⟨_, _, rfl, by omega⟩

theorem encodeRune_length (n : Nat) : 1 ≤ (encodeRune n).length ∧ (encodeRune n).length ≤ 4 := by
  unfold encodeRune
  split_ifs <;> simp

theorem appendStringLoop_cons (k b : Nat) (t : Bytes) :
    appendStringLoop (k + 1) (b :: t) =
      (escapeStep b t).1 ++ appendStringLoop k ((b :: t).drop (escapeStep b t).2) := rfl

theorem readString_cons (f c : Nat) (t acc : Bytes) :
    readString (f + 1) (c :: t) acc =
      if c = 0x22 then some (acc, t)
      else
        match unquoteStep c t with
        | none => none
        | some (out, k) => readString f ((c :: t).drop k) (acc ++ out) := rfl

theorem escapeStep_rune (n : Nat) (hv : ValidRune n) (b : Nat) (t tail : Bytes)
    (hbt : encodeRune n ++ tail = b :: t) :
    escapeStep b t = (encRune n, (encodeRune n).length) := by
  unfold escapeStep
  rw [← hbt]
  by_cases h1 : n < 0x80
  · have he : encodeRune n = [n] := by simp [encodeRune, h1]
    rw [he] at hbt
    have hb : n = b := by simpa using congrArg List.head? hbt
    subst hb
    simp [encRune, h1, he]
  · obtain ⟨b', t', hbt', hb'⟩ := encodeRune_head n (by omega)
    have hb : b' = b := by
      rw [hbt'] at hbt
      simpa using congrArg List.head? hbt
    subst hb
    have hlen := encodeRune_length n
    have htake : (encodeRune n ++ tail).take 4 =
        encodeRune n ++ tail.take (4 - (encodeRune n).length) := by
      rw [List.take_append_eq_append_take, List.take_of_length_le hlen.2]
    have hb2 : ¬ b' < 0x80 := by omega
    simp only [hb2, if_false, htake, decodeRune_encodeRune n hv]
    have hne : ¬ (n = RuneError ∧ (encodeRune n).length = 1) := by
      intro h
      have h2 := h.2
      rw [h.1] at h2
      simp [RuneError, encodeRune] at h2
    simp only [hne, if_false, encRune, h1]
    by_cases h2 : n = 0x2028 ∨ n = 0x2029
    · simp only [h2, if_true]
    · simp only [h2, if_false, List.take_left]

theorem appendStringLoop_rune (k n : Nat) (hv : ValidRune n) (tail : Bytes) :
    appendStringLoop (k + 1) (encodeRune n ++ tail) = encRune n ++ appendStringLoop k tail := by
  obtain ⟨b, t, hbt⟩ : ∃ b t, encodeRune n ++ tail = b :: t := by
    have := (encodeRune_length n).1
    cases h : encodeRune n with
    | nil => simp [h] at this
    | cons b t => exact ⟨b, t ++ tail, rfl⟩
  rw [hbt, appendStringLoop_cons, escapeStep_rune n hv b t tail hbt]
  simp only
  rw [← hbt, List.drop_left]

theorem unquoteStep_safe (n : Nat) (h1 : n < 0x80) (hs : htmlSafe n = true) (tail : Bytes) :
    n ≠ 0x22 ∧ unquoteStep n tail = some ([n], 1) := by
  simp only [htmlSafe, Bool.and_eq_true, decide_eq_true_eq, bne_iff_ne, ne_eq] at hs
  have a1 : ¬ n = 0x22 := by omega
  have a2 : ¬ n = 0x5C := by omega
  have a3 : ¬ n < 0x20 := by omega
  refine ⟨a1, ?_⟩
  simp only [unquoteStep, a2, a3, h1, if_true, if_false]

theorem unquoteStep_escape (n : Nat) (h1 : n < 0x80) (hs : htmlSafe n = false)
    (tail : Bytes) :
    ∃ t, escapeASCII n ++ tail = 0x5C :: t ∧
      unquoteStep 0x5C t = some ([n], (escapeASCII n).length) := by
  have hcases : n < 0x20 ∨ n = 0x22 ∨ n = 0x26 ∨ n = 0x3C ∨ n = 0x3E ∨ n = 0x5C := by
    by_contra hc
    have : htmlSafe n = true := by
      simp only [htmlSafe, Bool.and_eq_true, decide_eq_true_eq, bne_iff_ne, ne_eq]
      omega
    rw [this] at hs
    cases hs
  rcases hcases with h | h | h | h | h | h
  · interval_cases n <;> exact ⟨_, rfl, rfl⟩
  all_goals subst h; exact ⟨_, rfl, rfl⟩

theorem readString_rune (f n : Nat) (hv : ValidRune n) (tail acc : Bytes) :
    readString (f + 1) (encRune n ++ tail) acc = readString f tail (acc ++ encodeRune n) := by
  by_cases h1 : n < 0x80
  · have he : encodeRune n = [n] := by simp [encodeRune, h1]
    rw [he]
    cases hs : htmlSafe n with
    | true =>
      obtain ⟨a1, a2⟩ := unquoteStep_safe n h1 hs tail
      simp only [encRune, h1, hs, if_true, List.singleton_append]
      rw [readString_cons]
      simp only [a1, if_false, a2, List.drop_succ_cons, List.drop_zero]
    | false =>
      obtain ⟨t, e1, e2⟩ := unquoteStep_escape n h1 hs tail
      simp only [encRune, h1, hs, if_true, Bool.false_eq_true, if_false]
      rw [e1, readString_cons]
      simp only [show ¬ (0x5C : Nat) = 0x22 by decide, if_false, e2]
      rw [← e1, List.drop_left]
  · by_cases h2 : n = 0x2028 ∨ n = 0x2029
    · rcases h2 with h | h <;> subst h <;> rfl
    · simp only [encRune, h1, h2, if_false]
      obtain ⟨b, t, hbt, hb⟩ := encodeRune_head n (by omega)
      have hst : encodeRune n ++ tail = b :: (t ++ tail) := by rw [hbt]; rfl
      have a1 : ¬ b = 0x22 := by omega
      have a2 : ¬ b = 0x5C := by omega
      have a3 : ¬ b < 0x20 := by omega
      have a4 : ¬ b < 0x80 := by omega
      rw [hst, readString_cons]
      simp only [a1, if_false, unquoteStep, a2, a3, a4]
      rw [← hst, decodeRune_encodeRune n hv, List.drop_left]


theorem encRune_length (n : Nat) : 1 ≤ (encRune n).length := by
  unfold encRune escapeASCII
  have := (encodeRune_length n).1
  split_ifs <;> first | exact this | simp

theorem appendStringLoop_nil (k : Nat) : appendStringLoop k [] = [] := by
  cases k <;> rfl

theorem appendStringLoop_length (ns : List Nat) (hv : ∀ n ∈ ns, ValidRune n) :
    ∀ k, ns.length ≤ k → ns.length ≤ (appendStringLoop k (ns.flatMap encodeRune)).length := by
  induction ns with
  | nil => intro k _; simp
  | cons n ns ih =>
    intro k hk
    obtain ⟨k', rfl⟩ : ∃ k', k = k' + 1 := ⟨k - 1, by simp at hk; omega⟩
    rw [List.flatMap_cons, appendStringLoop_rune k' n (hv n (List.mem_cons_self _ _))]
    have h1 := encRune_length n
    have h2 := ih (fun m hm => hv m (List.mem_cons_of_mem _ hm)) k' (by simp at hk; omega)
    simp only [List.length_append, List.length_cons]
    omega

theorem readString_runes (ns : List Nat) (hv : ∀ n ∈ ns, ValidRune n) (rest : Bytes) :
    ∀ (k f : Nat) (acc : Bytes), ns.length ≤ k → ns.length < f →
      readString f (appendStringLoop k (ns.flatMap encodeRune) ++ 0x22 :: rest) acc =
        some (acc ++ ns.flatMap encodeRune, rest) := by
  induction ns with
  | nil =>
    intro k f acc _ hf
    obtain ⟨f', rfl⟩ : ∃ f', f = f' + 1 := ⟨f - 1, by simp at hf; omega⟩
    simp [appendStringLoop_nil, readString_cons]
  | cons n ns ih =>
    intro k f acc hk hf
    obtain ⟨k', rfl⟩ : ∃ k', k = k' + 1 := ⟨k - 1, by simp at hk; omega⟩
    obtain ⟨f', rfl⟩ : ∃ f', f = f' + 1 := ⟨f - 1, by simp at hf; omega⟩
    have hn := hv n (List.mem_cons_self _ _)
    rw [List.flatMap_cons, appendStringLoop_rune k' n hn, List.append_assoc,
      readString_rune f' n hn,
      ih (fun m hm => hv m (List.mem_cons_of_mem _ hm)) k' f' _ (by simp at hk; omega)
        (by simp at hf; omega),
      List.append_assoc]

theorem validUTF8_runes {s : Bytes} (h : ValidUTF8 s) :
    ∃ ns : List Nat, (∀ n ∈ ns, ValidRune n) ∧ s = ns.flatMap encodeRune := by
  obtain ⟨str, rfl⟩ := h
  refine ⟨str.toList.map Char.toNat, ?_, ?_⟩
  · intro n hn
    obtain ⟨c, -, rfl⟩ := List.mem_map.1 hn
    exact char_valid c
  · simp [utf8, List.flatMap_map]

theorem runes_length_le (ns : List Nat) : ns.length ≤ (ns.flatMap encodeRune).length := by
  induction ns with
  | nil => simp
  | cons n ns ih =>
    have := (encodeRune_length n).1
    simp only [List.flatMap_cons, List.length_append, List.length_cons]
    omega

theorem skipWs_cons (b : Nat) (t : Bytes) (h : isWs b = false) : skipWs (b :: t) = b :: t := by
  simp [skipWs, List.dropWhile, h]

/-- Reading back a string literal written by the encoder. -/
theorem readStringValue_appendString (s : Bytes) (h : ValidUTF8 s) (rest : Bytes) :
    readStringValue (appendString s ++ rest) = some (s, rest) := by
  obtain ⟨ns, hv, rfl⟩ := validUTF8_runes h
  have hl := runes_length_le ns
  have hlen := appendStringLoop_length ns hv _ hl
  unfold readStringValue appendString
  simp only [List.singleton_append, List.cons_append, List.append_assoc, List.nil_append]
  rw [skipWs_cons _ _ (by decide)]
  simp only [if_true]
  rw [readString_runes ns hv rest _ _ [] hl
    (by simp only [List.length_append, List.length_cons]; omega)]
  rfl

theorem appendString_length (s : Bytes) : 2 ≤ (appendString s).length := by
  simp [appendString]

theorem appendString_head (s : Bytes) : ∃ t, appendString s = 0x22 :: t := ⟨_, rfl⟩

theorem readElems_appendArray (rest : Bytes) :
    ∀ (us : List Bytes) (u : Bytes), (∀ x ∈ u :: us, ValidUTF8 x) → ∀ (f : Nat) (acc : List Bytes),
      us.length < f →
      readElems f (appendArray (u :: us) ++ 0x5D :: rest) acc = some (acc ++ u :: us, rest) := by
  intro us
  induction us with
  | nil =>
    intro u hv f acc hf
    obtain ⟨f', rfl⟩ : ∃ f', f = f' + 1 := ⟨f - 1, by omega⟩
    simp only [appendArray, readElems]
    rw [readStringValue_appendString u (hv u (List.mem_cons_self _ _))]
    simp only
    rw [skipWs_cons _ _ (by decide)]
    simp
  | cons v us ih =>
    intro u hv f acc hf
    obtain ⟨f', rfl⟩ : ∃ f', f = f' + 1 := ⟨f - 1, by omega⟩
    simp only [appendArray, readElems, List.append_assoc, List.singleton_append,
      List.cons_append]
    rw [readStringValue_appendString u (hv u (List.mem_cons_self _ _))]
    simp only
    rw [skipWs_cons _ _ (by decide)]
    simp only [if_true, List.nil_append]
    rw [ih v (fun x hx => hv x (List.mem_cons_of_mem _ hx)) f' _ (by simp at hf; omega)]
    simp

theorem appendArray_length (us : List Bytes) : us.length ≤ (appendArray us).length := by
  induction us with
  | nil => simp [appendArray]
  | cons u us ih =>
    cases us with
    | nil =>
      have := appendString_length u
      simp only [appendArray, List.length_cons, List.length_nil]
      omega
    | cons v us =>
      have := appendString_length u
      simp only [appendArray, List.length_append, List.length_cons] at ih ⊢
      omega

theorem appendArray_head (u : Bytes) (us : List Bytes) :
    ∃ t, appendArray (u :: us) = 0x22 :: t := by
  cases us with
  | nil => exact ⟨_, rfl⟩
  | cons v us => exact ⟨_, rfl⟩

theorem readArray_appendArray (us : List Bytes) (hv : ∀ x ∈ us, ValidUTF8 x) (rest : Bytes) :
    readArray ([0x5B] ++ appendArray us ++ [0x5D] ++ rest) = some (us, rest) := by
  unfold readArray
  simp only [List.singleton_append, List.cons_append, List.append_assoc, List.nil_append]
  rw [skipWs_cons _ _ (by decide)]
  simp only [if_true]
  cases us with
  | nil =>
    simp only [appendArray, List.nil_append]
    rw [skipWs_cons _ _ (by decide)]
    simp
  | cons u us =>
    obtain ⟨t, ht⟩ := appendArray_head u us
    have hlen := appendArray_length (u :: us)
    rw [readElems_appendArray rest us u hv _ []
      (by simp only [List.length_append, List.length_cons] at hlen ⊢; omega)]
    rw [ht, List.cons_append, skipWs_cons _ _ (by decide)]
    simp


theorem readMembers_step (f : Nat) (key value rest : Bytes) (r r1 : IndexNowRequest) (d : Nat)
    (hk : ValidUTF8 key)
    (hfield : readField key (value ++ d :: rest) r = some (r1, d :: rest))
    (hd : isWs d = false) :
    readMembers (f + 1) (appendString key ++ 0x3A :: (value ++ d :: rest)) r =
      if d = 0x2C then readMembers f rest r1
      else if d = 0x7D then some (r1, rest)
      else none := by
  rw [readMembers, readStringValue_appendString key hk]
  simp only
  rw [skipWs_cons _ _ (by decide)]
  simp only [if_true, hfield]
  rw [skipWs_cons _ _ hd]

theorem validUTF8_host : ValidUTF8 [0x68, 0x6F, 0x73, 0x74] := ⟨"host", by decide⟩

theorem validUTF8_key : ValidUTF8 [0x6B, 0x65, 0x79] := ⟨"key", by decide⟩

theorem validUTF8_urlList : ValidUTF8 [0x75, 0x72, 0x6C, 0x4C, 0x69, 0x73, 0x74] :=
  ⟨"urlList", by decide⟩

theorem Marshal_eq (r : IndexNowRequest) :
    Marshal r = 0x7B :: (appendString [0x68, 0x6F, 0x73, 0x74] ++ 0x3A ::
      (appendString r.Host ++ 0x2C ::
        (appendString [0x6B, 0x65, 0x79] ++ 0x3A ::
          (appendString r.Key ++ 0x2C ::
            (appendString [0x75, 0x72, 0x6C, 0x4C, 0x69, 0x73, 0x74] ++ 0x3A ::
              (([0x5B] ++ appendArray r.UrlList ++ [0x5D] ++ []) ++ 0x7D :: [])))))) := by
  have h1 : appendString [0x68, 0x6F, 0x73, 0x74] = [0x22, 0x68, 0x6F, 0x73, 0x74, 0x22] := by
    decide
  have h2 : appendString [0x6B, 0x65, 0x79] = [0x22, 0x6B, 0x65, 0x79, 0x22] := by decide
  have h3 : appendString [0x75, 0x72, 0x6C, 0x4C, 0x69, 0x73, 0x74] =
      [0x22, 0x75, 0x72, 0x6C, 0x4C, 0x69, 0x73, 0x74, 0x22] := by decide
  rw [h1, h2, h3]
  simp [Marshal]

/-- Decoding the body written for a request whose strings are valid UTF-8 gives the
request back. -/
theorem Unmarshal_Marshal (r : IndexNowRequest) (hh : ValidUTF8 r.Host) (hk : ValidUTF8 r.Key)
    (hu : ∀ u ∈ r.UrlList, ValidUTF8 u) : Unmarshal (Marshal r) = some r := by
  have members : ∀ f, readMembers (f + 3)
      (appendString [0x68, 0x6F, 0x73, 0x74] ++ 0x3A ::
      (appendString r.Host ++ 0x2C ::
        (appendString [0x6B, 0x65, 0x79] ++ 0x3A ::
          (appendString r.Key ++ 0x2C ::
            (appendString [0x75, 0x72, 0x6C, 0x4C, 0x69, 0x73, 0x74] ++ 0x3A ::
              (([0x5B] ++ appendArray r.UrlList ++ [0x5D] ++ []) ++ 0x7D :: []))))))
      ⟨[], [], []⟩ = some (r, []) := by
    intro f
    rw [readMembers_step (f + 2) _ _ _ ⟨[], [], []⟩ ⟨r.Host, [], []⟩ 0x2C validUTF8_host
      (by simp [readField, readStringValue_appendString r.Host hh]) (by decide)]
    simp only [if_true]
    rw [readMembers_step (f + 1) _ _ _ ⟨r.Host, [], []⟩ ⟨r.Host, r.Key, []⟩ 0x2C validUTF8_key
      (by simp [readField, readStringValue_appendString r.Key hk]) (by decide)]
    simp only [if_true]
    rw [readMembers_step f _ _ _ ⟨r.Host, r.Key, []⟩ ⟨r.Host, r.Key, r.UrlList⟩ 0x7D
      validUTF8_urlList
      (by
        have := readArray_appendArray r.UrlList hu (0x7D :: [])
        simp only [List.append_nil, List.singleton_append, List.cons_append,
          List.append_assoc, List.nil_append] at this ⊢
        simp [readField, this])
      (by decide)]
    simp
  rw [Marshal_eq, Unmarshal, skipWs_cons _ _ (by decide)]
  simp only [if_true]
  obtain ⟨t, ht⟩ := appendString_head [0x68, 0x6F, 0x73, 0x74]
  generalize hbody : (appendString [0x68, 0x6F, 0x73, 0x74] ++ 0x3A ::
      (appendString r.Host ++ 0x2C ::
        (appendString [0x6B, 0x65, 0x79] ++ 0x3A ::
          (appendString r.Key ++ 0x2C ::
            (appendString [0x75, 0x72, 0x6C, 0x4C, 0x69, 0x73, 0x74] ++ 0x3A ::
              (([0x5B] ++ appendArray r.UrlList ++ [0x5D] ++ []) ++ 0x7D :: [])))))) = body
    at members
  have hlen : 3 ≤ body.length := by
    rw [← hbody]
    have := appendString_length [0x68, 0x6F, 0x73, 0x74]
    simp only [List.length_append, List.length_cons]
    omega
  have hhead : ∃ t', body = 0x22 :: t' := by
    rw [← hbody, ht]
    exact ⟨_, rfl⟩
  obtain ⟨t', ht'⟩ := hhead
  obtain ⟨f, hf⟩ : ∃ f, body.length = f + 3 := ⟨body.length - 3, by omega⟩
  rw [hf, members f]
  rw [ht', skipWs_cons _ _ (by decide)]
  simp [skipWs]

/-- C8, as stated, fails: a key that holds the single byte `0xFF` (not UTF-8) is
written as the escape of U+FFFD, so the body decodes to a request whose key is the
three bytes `EF BF BD`, not the key that was sent. -/
theorem roundtrip_changes_invalid_utf8 :
    postToIndexNow (fun _ _ body => .ok ⟨200, .data (String.mk (body.map Char.ofNat))⟩)
        (utf8 "a.example") [0xFF] [] "https://api.indexnow.org/indexnow" =
      .ok ⟨200, .data "\x7b\"host\":\"a.example\",\"key\":\"\\ufffd\",\"urlList\":[]\x7d"⟩ ∧
    Unmarshal (Marshal ⟨utf8 "a.example", [0xFF], []⟩) =
      some ⟨utf8 "a.example", [0xEF, 0xBF, 0xBD], []⟩ ∧
    Unmarshal (Marshal ⟨utf8 "a.example", [0xFF], []⟩) ≠ some ⟨utf8 "a.example", [0xFF], []⟩ := by
  refine ⟨by decide, by decide, by decide⟩

/-- C8, amended: for every host, key and URL list that are valid UTF-8, the body that
`postToIndexNow` posts is `json.Marshal` of the request, and decoding it gives back
the same host, the same key and the same URL list, with the same length and order. -/
theorem submission_body_roundtrip (Post : String → String → Bytes → GetResult)
    (host key : Bytes) (urlsToIndex : List Bytes) (indexnowUrl : String)
    (hh : ValidUTF8 host) (hk : ValidUTF8 key) (hu : ∀ u ∈ urlsToIndex, ValidUTF8 u) :
    postToIndexNow Post host key urlsToIndex indexnowUrl =
      Post indexnowUrl "application/json; charset=utf-8" (Marshal ⟨host, key, urlsToIndex⟩) ∧
    Unmarshal (Marshal ⟨host, key, urlsToIndex⟩) = some ⟨host, key, urlsToIndex⟩ :=
  ⟨rfl, Unmarshal_Marshal ⟨host, key, urlsToIndex⟩ hh hk hu⟩

/-- Instance of the amended C8 on a request with two URLs. -/
theorem submission_body_roundtrip_witness :
    Unmarshal (Marshal ⟨utf8 "a.example", utf8 "abc123",
        [utf8 "https://a.example/p1", utf8 "https://a.example/p2?x=<1>&y=é"]⟩) =
      some ⟨utf8 "a.example", utf8 "abc123",
        [utf8 "https://a.example/p1", utf8 "https://a.example/p2?x=<1>&y=é"]⟩ :=
  (submission_body_roundtrip (fun _ _ _ => .err "offline") (utf8 "a.example") (utf8 "abc123")
    [utf8 "https://a.example/p1", utf8 "https://a.example/p2?x=<1>&y=é"]
    "https://api.indexnow.org/indexnow" ⟨_, rfl⟩ ⟨_, rfl⟩
    (by
      intro u hu
      simp only [List.mem_cons, List.mem_singleton, List.not_mem_nil, or_false] at hu
      rcases hu with rfl | rfl
      · exact ⟨_, rfl⟩
      · exact ⟨_, rfl⟩)).2

end IndexNow
